import Mathlib

/-!
# go-size-analyzer: `internal/addr.go` and `internal/dwarf/dwarf.go`

A shallow embedding of `AddrPos`, `Addr`, `AddrSpace`, `AddrSpace.GetCoverage`
and `KnownAddr` with its insertion entry points, and of the DWARF helpers
`SizeForDWARFVar`, `EntryShouldIgnore` and `EntryFileReader`, followed by the
properties proved about them.

Conventions of the embedding

* `uint64` values are natural numbers; every addition or subtraction the Go
  code performs on them is reduced modulo `2^64` (`W`).
* A Go `panic` is the `error` side of `Except Panic`.
* Pointers to `Package` and `Function` are handles (`Nat`); a `*Function` is
  dereferenced through a heap `Nat → Function`, so the `fn` handed to
  `InsertPclntab` and `InsertDisasm` is a live function, not nil, and its
  `Disasm` map has been made. Every `Addr` the code stores
  is freshly built by its caller and never mutated, so spaces hold values,
  and no two spaces share their storage.
* A Go map is an association list. The order in which a map is iterated and
  the order `slices.SortFunc` gives to elements that compare equal are left
  open by Go: both are fields of `Runtime`, and the theorems hold for every
  runtime that satisfies `Runtime.Valid`.
-/

namespace GoSizeAnalyzer

/-- The modulus of `uint64` arithmetic. -/
abbrev W : Nat := 2 ^ 64

/-- `type AddrType string`. -/
abbrev AddrType := String

/-- `AddrTypeUnknown`: it exists, but should never be collected. -/
def AddrTypeUnknown : AddrType := "unknown"

/-- `AddrTypeText`: for the text section. -/
def AddrTypeText : AddrType := "text"

/-- `AddrTypeData`: data / rodata section. -/
def AddrTypeData : AddrType := "data"

/-- `type AddrPos struct`; the field `Type` of the source is `Typ` here, `Type`
being reserved. -/
structure AddrPos where
  Addr : Nat
  Size : Nat
  Typ : AddrType
deriving DecidableEq, Repr

/-- Modelled from the spec: `AddrSourceType` is declared outside the files at
hand; the spec gives the provenance tags as function-table, symbol-table and
disassembly. -/
inductive AddrSourceType where
  | AddrSourceGoPclntab
  | AddrSourceSymbol
  | AddrSourceDisasm
deriving DecidableEq, Repr

/-- The `Meta any` payload of an `Addr`: nil, or the metadata handed to
`InsertPclntab` / `InsertSymbol` (payload types are declared elsewhere, so a
payload is an opaque handle). -/
inductive Meta where
  | nil
  | pclntab (m : Nat)
  | symbol (m : Nat)
deriving DecidableEq, Repr

/-- `type Addr struct`: an `AddrPos` with owner, provenance and metadata. -/
structure Addr where
  pos : AddrPos
  Pkg : Option Nat
  Function : Option Nat
  SourceType : AddrSourceType
  Meta : Meta
deriving DecidableEq, Repr

/-- `type AddrCoverage = []AddrPos`. -/
abbrev AddrCoverage := List AddrPos

/-- `type AddrSpace map[uint64]*Addr`, as an association list. -/
abbrev AddrSpace := List (Nat × Addr)

/-- The fields of `Function` that `addr.go` touches. -/
structure Function where
  Pkg : Option Nat
  Disasm : AddrSpace

/-- The two panics of `addr.go`, with the values their messages print. -/
inductive Panic where
  | typeConflict (addr : Nat) (last : AddrType) (r : AddrType)
  | symbolNotData (addr : Nat)
deriving DecidableEq, Repr

deriving instance DecidableEq for Except

/-- `AddrSpace.Get`. -/
def AddrSpace.Get (a : AddrSpace) (addr : Nat) : Option Addr :=
  (a.find? (fun p => p.1 == addr)).map Prod.snd

/-- The map assignment `a[k] = v`: overwrite the binding of `k`, or add one. -/
def AddrSpace.set : AddrSpace → Nat → Addr → AddrSpace
  | [], k, v => [(k, v)]
  | p :: rest, k, v => if p.1 == k then (k, v) :: rest else p :: AddrSpace.set rest k v

/-- `AddrSpace.Insert`: of two entries at one address the larger is kept. -/
def AddrSpace.Insert (a : AddrSpace) (addr : Addr) : AddrSpace :=
  match a.Get addr.pos.Addr with
  | some old =>
    if old.pos.Size < addr.pos.Size then a.set addr.pos.Addr addr else a
  | none => a.set addr.pos.Addr addr

/-- `cmp.Compare` on `uint64`. -/
def cmpCompare (a b : Nat) : Int :=
  if a < b then -1 else if a > b then 1 else 0

/-- The comparator `GetCoverage` hands to `slices.SortFunc`. -/
def coverageCmp (a b : AddrPos) : Int :=
  if a.Addr ≠ b.Addr then cmpCompare a.Addr b.Addr else cmpCompare a.Size b.Size

/-- What Go leaves open: the iteration order of a map and the permutation
`slices.SortFunc` settles on. -/
structure Runtime where
  mapOrder : AddrSpace → AddrSpace
  sortFunc : (AddrPos → AddrPos → Int) → List AddrPos → List AddrPos

/-- A runtime is valid when iterating a map visits each binding once and
sorting returns a permutation ordered by the comparator. -/
def Runtime.Valid (R : Runtime) : Prop :=
  (∀ m, (R.mapOrder m).Perm m) ∧
  (∀ l, (R.sortFunc coverageCmp l).Perm l) ∧
  (∀ l, (R.sortFunc coverageCmp l).Pairwise (fun a b => coverageCmp a b ≤ 0))

/-- One valid runtime: maps iterate in list order, sorting is insertion sort. -/
def stdRuntime : Runtime where
  mapOrder := fun m => m
  sortFunc := fun c l => l.insertionSort (fun a b => c a b ≤ 0)

/-- `lo.MapToSlice(a, func(k, v) AddrPos { return v.AddrPos })`. -/
def MapToSlice (R : Runtime) (a : AddrSpace) : List AddrPos :=
  (R.mapOrder a).map (fun p => p.2.pos)

/-- `lo.Uniq`: the first occurrence of each value, in order. -/
def Uniq (l : List AddrPos) : List AddrPos :=
  l.foldl (fun result x => if x ∈ result then result else result ++ [x]) []

/-- The body of the `for _, r := range ranges` loop of `GetCoverage`. -/
def coverStep (cover : List AddrPos) (r : AddrPos) : Except Panic (List AddrPos) :=
  match cover.getLast? with
  | none => .ok (cover ++ [r])
  | some last =>
    if (last.Addr + last.Size) % W ≥ r.Addr then
      if last.Typ ≠ r.Typ then
        .error (Panic.typeConflict r.Addr last.Typ r.Typ)
      else if (last.Addr + last.Size) % W < (r.Addr + r.Size) % W then
        .ok (cover.dropLast ++
          [{ last with Size := ((r.Addr + r.Size) % W + W - last.Addr) % W }])
      else
        .ok cover
    else
      .ok (cover ++ [r])

/-- The merge loop of `GetCoverage`, from a given `cover`. -/
def coverLoop : List AddrPos → List AddrPos → Except Panic (List AddrPos)
  | cover, [] => .ok cover
  | cover, r :: rs =>
    match coverStep cover r with
    | .error e => .error e
    | .ok cover' => coverLoop cover' rs

/-- The slice `ranges` of `GetCoverage` just before the merge loop. -/
def sortedRanges (R : Runtime) (a : AddrSpace) (coverages : List AddrCoverage) :
    List AddrPos :=
  R.sortFunc coverageCmp (Uniq (MapToSlice R a ++ coverages.flatten))

/-- `AddrSpace.GetCoverage`. -/
def AddrSpace.GetCoverage (R : Runtime) (a : AddrSpace)
    (coverages : List AddrCoverage) : Except Panic AddrCoverage :=
  coverLoop [] (sortedRanges R a coverages)

/-- The ranges `GetCoverage` is given: the entries of the space and the ranges
of the extra coverages. -/
def inputRanges (a : AddrSpace) (coverages : List AddrCoverage) : List AddrPos :=
  a.map (fun p => p.2.pos) ++ coverages.flatten

/-- `type KnownAddr struct`; `k` is the handle of the `*KnownInfo`. -/
structure KnownAddr where
  pclntab : AddrSpace
  symbol : AddrSpace
  symbolCoverage : List AddrPos
  k : Nat
deriving DecidableEq, Repr

/-- `NewKnownAddr`. -/
def NewKnownAddr (k : Nat) : KnownAddr :=
  { pclntab := [], symbol := [], symbolCoverage := [], k := k }

/-- `KnownAddr.InsertPclntab`. -/
def KnownAddr.InsertPclntab (f : KnownAddr) (heap : Nat → Function)
    (addr size : Nat) (fn : Nat) (meta : Nat) : KnownAddr :=
  let cur : Addr :=
    { pos := { Addr := addr, Size := size, Typ := AddrTypeText }
      Pkg := (heap fn).Pkg
      Function := some fn
      SourceType := AddrSourceType.AddrSourceGoPclntab
      Meta := Meta.pclntab meta }
  { f with pclntab := f.pclntab.Insert cur }

/-- `KnownAddr.InsertSymbol`. -/
def KnownAddr.InsertSymbol (f : KnownAddr) (addr size : Nat) (p : Option Nat)
    (typ : AddrType) (meta : Nat) : KnownAddr :=
  let cur : Addr :=
    { pos := { Addr := addr, Size := size, Typ := typ }
      Pkg := p
      Function := none
      SourceType := AddrSourceType.AddrSourceSymbol
      Meta := Meta.symbol meta }
  if typ = AddrTypeText then
    match f.pclntab.Get addr with
    | some _ => f
    | none => { f with symbol := f.symbol.Insert cur }
  else { f with symbol := f.symbol.Insert cur }

/-- `KnownAddr.BuildSymbolCoverage`. -/
def KnownAddr.BuildSymbolCoverage (R : Runtime) (f : KnownAddr) : Except Panic KnownAddr :=
  match f.symbol.GetCoverage R [] with
  | .error e => .error e
  | .ok cov => .ok { f with symbolCoverage := cov }

/-- The comparator of `SymbolCovHas`; `target` is `AddrPos{Addr: addr}`. -/
def symbolCovCmp (size : Nat) (cur target : AddrPos) : Int :=
  if (cur.Addr + cur.Size) % W ≤ target.Addr then -1
  else if cur.Addr ≥ (target.Addr + size) % W then 1
  else 0

/-- The loop of `slices.BinarySearchFunc`; `fuel` bounds the iterations. -/
def binarySearchLoop (x : List AddrPos) (cmp : AddrPos → Int) : Nat → Nat → Nat → Nat
  | 0, i, _ => i
  | fuel + 1, i, j =>
    if i < j then
      let h := (i + j) / 2
      match x[h]? with
      | some e =>
        if cmp e < 0 then binarySearchLoop x cmp fuel (h + 1) j
        else binarySearchLoop x cmp fuel i h
      | none => i
    else i

/-- `slices.BinarySearchFunc` of the Go standard library: the position found
and whether the element there compares equal to the target. -/
def BinarySearchFunc (x : List AddrPos) (target : AddrPos)
    (cmp : AddrPos → AddrPos → Int) : Nat × Bool :=
  let n := x.length
  let i := binarySearchLoop x (fun e => cmp e target) n 0 n
  match x[i]? with
  | some e => (i, decide (cmp e target = 0))
  | none => (i, false)

/-- `KnownAddr.SymbolCovHas`. -/
def KnownAddr.SymbolCovHas (f : KnownAddr) (addr size : Nat) : Bool :=
  (BinarySearchFunc f.symbolCoverage { Addr := addr, Size := 0, Typ := "" }
    (symbolCovCmp size)).2

/-- `KnownAddr.InsertDisasm`: the `KnownAddr` and the heap of functions after
the call, or the panic. -/
def KnownAddr.InsertDisasm (f : KnownAddr) (heap : Nat → Function)
    (addr size : Nat) (fn : Nat) : Except Panic (KnownAddr × (Nat → Function)) :=
  let cur : Addr :=
    { pos := { Addr := addr, Size := size, Typ := AddrTypeData }
      Pkg := (heap fn).Pkg
      Function := some fn
      SourceType := AddrSourceType.AddrSourceDisasm
      Meta := Meta.nil }
  match f.symbol.Get addr with
  | some sv =>
    if sv.pos.Typ ≠ AddrTypeData then .error (Panic.symbolNotData addr)
    else .ok (f, heap)
  | none =>
    if f.SymbolCovHas addr size then .ok (f, heap)
    else .ok (f, fun g =>
      if g = fn then { heap fn with Disasm := (heap fn).Disasm.Insert cur } else heap g)

/-- The address space obtained by `Insert`ing the entries of `l`, in order,
into an empty one. -/
def insertAll (l : List Addr) : AddrSpace :=
  l.foldl AddrSpace.Insert []

/-- The arguments of one `InsertPclntab` call. -/
structure PclntabCall where
  addr : Nat
  size : Nat
  fn : Nat
  meta : Nat

/-- The arguments of one `InsertSymbol` call. -/
structure SymbolCall where
  addr : Nat
  size : Nat
  p : Option Nat
  typ : AddrType
  meta : Nat

/-- A run of `InsertPclntab` calls, in order. -/
def runPclntab (f : KnownAddr) (heap : Nat → Function) (cs : List PclntabCall) : KnownAddr :=
  cs.foldl (fun g c => g.InsertPclntab heap c.addr c.size c.fn c.meta) f

/-- A run of `InsertSymbol` calls, in order. -/
def runSymbol (f : KnownAddr) (cs : List SymbolCall) : KnownAddr :=
  cs.foldl (fun g c => g.InsertSymbol c.addr c.size c.p c.typ c.meta) f

/-- The insertion order the callers honour: a fresh `KnownAddr`, every
`InsertPclntab` call, then every `InsertSymbol` call. -/
def ingest (k : Nat) (heap : Nat → Function) (pcs : List PclntabCall)
    (scs : List SymbolCall) : KnownAddr :=
  runSymbol (runPclntab (NewKnownAddr k) heap pcs) scs

/-- A symbol-table `Addr` with no package, for the worked examples. -/
def symAddr (addr size : Nat) (typ : AddrType) : Addr :=
  { pos := { Addr := addr, Size := size, Typ := typ }
    Pkg := none
    Function := none
    SourceType := AddrSourceType.AddrSourceSymbol
    Meta := Meta.nil }

/-- An address space of four text entries and one data entry. -/
def demoSpace : AddrSpace :=
  [(10, symAddr 10 5 "text"), (3, symAddr 3 2 "text"), (6, symAddr 6 3 "text"),
   (40, symAddr 40 0 "data"), (12, symAddr 12 1 "text")]

/-- Two extra coverages to fold into `demoSpace`. -/
def demoCoverages : List AddrCoverage :=
  [[⟨15, 1, "text"⟩, ⟨3, 2, "text"⟩], [⟨20, 4, "text"⟩]]

/-- A text range `[16, 32)` and a data range starting at 32. -/
def touchingSpace : AddrSpace :=
  [(32, symAddr 32 8 "data"), (16, symAddr 16 16 "text")]

/-- A `KnownAddr` whose symbol space is one data symbol `[0x2000, 0x2010)`. -/
def covKnown : KnownAddr :=
  { pclntab := [], symbol := [(0x2000, symAddr 0x2000 0x10 "data")],
    symbolCoverage := [], k := 0 }

/-- A `KnownAddr` whose symbol space is one zero-size data symbol at `0x3000`. -/
def zeroKnown : KnownAddr :=
  { pclntab := [], symbol := [(0x3000, symAddr 0x3000 0 "data")],
    symbolCoverage := [], k := 0 }

/-- A heap in which no function has a package or a disassembly entry yet. -/
def emptyHeap : Nat → Function :=
  fun _ => { Pkg := none, Disasm := [] }

/-- The state `covKnown` after `BuildSymbolCoverage`. -/
def builtKnown : KnownAddr :=
  { covKnown with symbolCoverage := [⟨0x2000, 0x10, "data"⟩] }

/-- One pclntab function `[0x1000, 0x1010)` owned by function 7. -/
def demoPclntabCalls : List PclntabCall :=
  [{ addr := 0x1000, size := 16, fn := 7, meta := 0 }]

/-- One text symbol `[0x1004, 0x1008)`, inside that function. -/
def demoSymbolCalls : List SymbolCall :=
  [{ addr := 0x1004, size := 4, p := none, typ := AddrTypeText, meta := 0 }]

/-- What the merge loop of `GetCoverage` maintains between the ranges already
consumed (`done`) and the slice built so far (`cover`). -/
structure CoverInv (done cover : List AddrPos) : Prop where
  sep : cover.Pairwise (fun c d => c.Addr + c.Size < d.Addr)
  bound : ∀ c ∈ cover, c.Addr + c.Size < W
  covers : ∀ r ∈ done, ∃ c ∈ cover,
    c.Typ = r.Typ ∧ c.Addr ≤ r.Addr ∧ r.Addr + r.Size ≤ c.Addr + c.Size
  start : ∀ c ∈ cover, ∃ r ∈ done, r.Typ = c.Typ ∧ r.Addr = c.Addr
  fin : ∀ c ∈ cover, ∃ r ∈ done,
    r.Typ = c.Typ ∧ c.Addr ≤ r.Addr ∧ r.Addr + r.Size = c.Addr + c.Size
  bytes : ∀ c ∈ cover, ∀ x, c.Addr ≤ x → x < c.Addr + c.Size →
    ∃ r ∈ done, r.Addr ≤ x ∧ x < r.Addr + r.Size

/-- Every binding of a space has its entry's address as key, as `Insert`, the
only writer of an `AddrSpace`, leaves it. -/
abbrev KeysMatch (a : AddrSpace) : Prop :=
  ∀ p ∈ a, p.1 = p.2.pos.Addr

/-- A text entry of the symbol space sits at an address the pclntab space has
no entry for. -/
def TextOffPclntab (f : KnownAddr) : Prop :=
  ∀ s ∈ f.symbol, s.2.pos.Typ = AddrTypeText → f.pclntab.Get s.2.pos.Addr = none

/-- The order of the `GetCoverage` comparator is total. -/
instance : IsTotal AddrPos (fun a b => coverageCmp a b ≤ 0) where
  total a b := by
    unfold coverageCmp cmpCompare
    split_ifs <;> omega

/-- The order of the `GetCoverage` comparator is transitive. -/
instance : IsTrans AddrPos (fun a b => coverageCmp a b ≤ 0) where
  trans a b c := by
    unfold coverageCmp cmpCompare
    split_ifs <;> omega

/-- Each range of `cover` is one piece: every address above its start and up to
its end is reached by an input range that starts below it. -/
def CoverConn (done cover : List AddrPos) : Prop :=
  ∀ c ∈ cover, ∀ x, c.Addr < x → x ≤ c.Addr + c.Size →
    ∃ r ∈ done, r.Addr < x ∧ x ≤ r.Addr + r.Size

/-- A coverage whose last range wraps around `2^64`. -/
def wrapCov : List AddrPos :=
  [⟨0, 5, "text"⟩, ⟨10, 0xFFFFFFFFFFFFFFF8, "text"⟩]

/-- A `KnownAddr` whose symbol space holds the two ranges of `wrapCov`. -/
def wrapKnown : KnownAddr :=
  { pclntab := []
    symbol := [(0, symAddr 0 5 "text"), (10, symAddr 10 0xFFFFFFFFFFFFFFF8 "text")]
    symbolCoverage := []
    k := 0 }

/-- The ranges of `demoSpace` and `demoCoverages` again, in another order and
with repetitions, all of them as one extra coverage. -/
def demoShuffled : List AddrCoverage :=
  [[⟨20, 4, "text"⟩, ⟨40, 0, "data"⟩, ⟨3, 2, "text"⟩, ⟨12, 1, "text"⟩, ⟨15, 1, "text"⟩,
    ⟨6, 3, "text"⟩, ⟨10, 5, "text"⟩, ⟨20, 4, "text"⟩, ⟨12, 1, "text"⟩]]

/-- A `KnownAddr` whose symbol space is `demoSpace`. -/
def demoKnown : KnownAddr :=
  { pclntab := [], symbol := demoSpace, symbolCoverage := [], k := 0 }

/-- The state `demoKnown` after `BuildSymbolCoverage`: four ranges. -/
def demoBuilt : KnownAddr :=
  { demoKnown with
    symbolCoverage := [⟨3, 2, "text"⟩, ⟨6, 3, "text"⟩, ⟨10, 5, "text"⟩, ⟨40, 0, "data"⟩] }

/-!
## The DWARF helpers of `internal/dwarf/dwarf.go`

`debug/dwarf` is the Go standard library: an entry is its list of fields, and
`d.Type`, `d.LineReader` are fields of `Data`. The reader helpers `readString`,
`readSlice` and `readEmbedFS` live outside the files at hand and are
parameters (`Readers`). Calling `readMemory` is an effect: a helper returns,
next to its values, the invocations of `readMemory` it made, and
`SizeForDWARFVar` returns, next to its values, the invocations made during the
call, which are those of the helper it applied. `int` is 64 bits wide.
-/

/-- `type Content struct`. -/
structure Content where
  Name : String
  Addr : Nat
  Size : Nat
deriving DecidableEq, Repr

/-- The attributes of `debug/dwarf` that `dwarf.go` asks for, and the rest. -/
inductive Attr where
  | AttrType
  | AttrDeclaration
  | AttrInline
  | AttrAbstractOrigin
  | AttrSpecification
  | AttrTrampoline
  | AttrDeclFile
  | other (code : Nat)
deriving DecidableEq, Repr

/-- The dynamic value of a field (`Val any`) of a parsed entry, which is
never nil: a `bool`, an `int64`, a `dwarf.Offset`, or a value of another type. -/
inductive AnyVal where
  | bool (b : Bool)
  | int64 (i : Int)
  | Offset (o : Nat)
  | other (tag : Nat)
deriving DecidableEq, Repr

/-- `dwarf.Field`. -/
structure Field where
  Attr : GoSizeAnalyzer.Attr
  Val : AnyVal
deriving DecidableEq, Repr

/-- `dwarf.Entry`. -/
structure Entry where
  Field : List GoSizeAnalyzer.Field
deriving DecidableEq, Repr

/-- `(*dwarf.Entry).Val`: the value of the first field with the attribute, or
nil (`none`). -/
def Entry.Val (e : Entry) (a : Attr) : Option AnyVal :=
  (e.Field.find? (fun f => f.Attr == a)).map (fun f => f.Val)

/-- `dwarf.StructType`, with the fields `dwarf.go` reads. -/
structure StructType where
  StructName : String
  ByteSize : Int
deriving DecidableEq, Repr

/-- `dwarf.Type`: a struct type, a typedef of a type, or a type of another
shape. -/
inductive DType where
  | StructType (s : GoSizeAnalyzer.StructType)
  | TypedefType (Typ : DType)
  | other (ByteSize : Int)
deriving DecidableEq, Repr

/-- `dwarf.Type.Size()`: the byte size; a typedef has the size of its type. -/
def DType.Size : DType → Int
  | .StructType s => s.ByteSize
  | .TypedefType t => t.Size
  | .other n => n

/-- The conversion `uint64(x)` of an `int64`. -/
def uint64OfInt64 (x : Int) : Nat :=
  (x % (2 ^ 64 : Int)).toNat

/-- Modelled from the spec: `MemoryReader` is declared outside the files at
hand; the spec gives it as a function from `(address, byteCount)` to bytes or
failure. -/
abbrev MemoryReader := Nat → Nat → Except String (List Nat)

/-- `dwarf.LineFile`, with the field `dwarf.go` reads. -/
structure LineFile where
  Name : String
deriving DecidableEq, Repr

/-- `dwarf.LineReader`: `Files()` is a `[]*dwarf.LineFile`, whose elements may
be nil. -/
structure LineReader where
  Files : List (Option LineFile)
deriving DecidableEq, Repr

/-- `dwarf.Data`, with the two methods `dwarf.go` calls: `Type(off)` and
`LineReader(cu)`, each returning its value and its error (`none` is nil). -/
structure Data where
  Typ : Nat → Except String DType
  LineReader : Entry → Option GoSizeAnalyzer.LineReader × Option String

/-- One invocation of `readMemory`: the address and the byte count it was
given. -/
structure MemRead where
  addr : Nat
  size : Nat
deriving DecidableEq, Repr

/-- The reader helpers of the package, each returning its values and its error
(`none` is nil), paired with the invocations of `readMemory` it made, in
order. -/
structure Readers where
  readString : StructType → MemoryReader → (Nat × Nat × Option String) × List MemRead
  readSlice : StructType → MemoryReader → String → (Nat × Nat × Option String) × List MemRead
  readEmbedFS : StructType → MemoryReader → (List Content × Option String) × List MemRead

/-- What `SizeForDWARFVar` returns: `[]Content`, `uint64`, `error`. A nil slice
is the empty list, a nil error is `none`. -/
structure VarResult where
  contents : List Content
  size : Nat
  err : Option String
deriving DecidableEq, Repr

/-- `SizeForDWARFVar`: what it returns, paired with the invocations of
`readMemory` made during the call. -/
def SizeForDWARFVar (rd : Readers) (d : Data) (entry : Entry)
    (readMemory : MemoryReader) : VarResult × List MemRead :=
  match entry.Val Attr.AttrType with
  | some (AnyVal.Offset sizeOffset) =>
    match d.Typ sizeOffset with
    | .error err => ({ contents := [], size := 0, err := some err }, [])
    | .ok typ =>
      match typ with
      | .StructType structTyp =>
        if structTyp.StructName = "string" then
          match rd.readString structTyp readMemory with
          | ((strAddr, size, err), reads) =>
            if err ≠ none ∨ size = 0 then
              ({ contents := [], size := uint64OfInt64 typ.Size, err := err }, reads)
            else
              ({ contents := [{ Name := "string", Addr := strAddr, Size := size }],
                 size := uint64OfInt64 typ.Size, err := none }, reads)
        else if structTyp.StructName = "[]uint8" then
          match rd.readSlice structTyp readMemory "*uint8" with
          | ((dataAddr, size, err), reads) =>
            if err ≠ none ∨ size = 0 then
              ({ contents := [], size := uint64OfInt64 typ.Size, err := err }, reads)
            else
              ({ contents := [{ Name := "[]uint8", Addr := dataAddr, Size := size }],
                 size := uint64OfInt64 typ.Size, err := none }, reads)
        else
          ({ contents := [], size := uint64OfInt64 typ.Size, err := none }, [])
      | .TypedefType inner =>
        match inner with
        | .StructType structTyp =>
          if structTyp.StructName = "embed.FS" then
            match rd.readEmbedFS structTyp readMemory with
            | ((parts, err), reads) =>
              if err ≠ none ∨ parts.length = 0 then
                ({ contents := [], size := uint64OfInt64 typ.Size, err := err }, reads)
              else
                ({ contents := parts, size := uint64OfInt64 typ.Size, err := none }, reads)
          else
            ({ contents := [], size := uint64OfInt64 typ.Size, err := none }, [])
        | _ => ({ contents := [], size := uint64OfInt64 typ.Size, err := none }, [])
      | .other _ =>
        ({ contents := [], size := uint64OfInt64 typ.Size, err := none }, [])
  | _ =>
    ({ contents := [], size := 0, err := some "failed to get type offset" }, [])

/-- Invoking `readMemory`: its answer, and the record of the invocation. -/
def invoke (readMemory : MemoryReader) (addr size : Nat) :
    Except String (List Nat) × List MemRead :=
  (readMemory addr size, [{ addr := addr, size := size }])

/-- What the spec leaves open about the reader helpers: the address of the
variable, the word size, the size of the table of a bundle, and how the bytes
read are decoded into the helper's values and error. -/
structure Layout where
  varAddr : Nat
  word : Nat
  tableSize : Nat
  decodeString : List Nat → Nat × Nat × Option String
  decodeSlice : List Nat → Nat × Nat × Option String
  decodeEmbedFS : List Nat → List Content × Option String

/-- Modelled from the spec: `readString` is outside the files at hand; the spec
has it read the two-word string header (data pointer, length) from memory at
the variable's address with one invocation of the memory-read primitive, a
failed read being its error. -/
def specReadString (L : Layout) (_structTyp : StructType) (readMemory : MemoryReader) :
    (Nat × Nat × Option String) × List MemRead :=
  match invoke readMemory L.varAddr (2 * L.word) with
  | (.error e, reads) => ((0, 0, some e), reads)
  | (.ok data, reads) => (L.decodeString data, reads)

/-- Modelled from the spec: `readSlice` is outside the files at hand; the spec
has it read the three-word slice header (data pointer, length, capacity) with
one invocation of the memory-read primitive, a failed read being its error. -/
def specReadSlice (L : Layout) (_structTyp : StructType) (readMemory : MemoryReader)
    (_elem : String) : (Nat × Nat × Option String) × List MemRead :=
  match invoke readMemory L.varAddr (3 * L.word) with
  | (.error e, reads) => ((0, 0, some e), reads)
  | (.ok data, reads) => (L.decodeSlice data, reads)

/-- Modelled from the spec: `readEmbedFS` is outside the files at hand; the spec
has it read and interpret the filesystem's internal table, like the other two
shapes with one invocation of the memory-read primitive, a failed read being
its error. -/
def specReadEmbedFS (L : Layout) (_structTyp : StructType) (readMemory : MemoryReader) :
    (List Content × Option String) × List MemRead :=
  match invoke readMemory L.varAddr L.tableSize with
  | (.error e, reads) => (([], some e), reads)
  | (.ok data, reads) => (L.decodeEmbedFS data, reads)

/-- Modelled from the spec: the three reader helpers as the spec describes
them, for a given layout. -/
def specReaders (L : Layout) : Readers where
  readString := specReadString L
  readSlice := specReadSlice L
  readEmbedFS := specReadEmbedFS L

/-- `EntryShouldIgnore`. -/
def EntryShouldIgnore (entry : Entry) : Bool :=
  match entry.Val Attr.AttrDeclaration with
  | some (AnyVal.bool true) => true
  | _ =>
    match entry.Val Attr.AttrInline with
    | some (AnyVal.bool true) => true
    | _ =>
      match entry.Val Attr.AttrAbstractOrigin with
      | some _ => true
      | none => (entry.Val Attr.AttrSpecification).isSome

/-- The run-time panics of the lookup closure. -/
inductive RuntimeError where
  | nilDereference
  | indexOutOfRange
deriving DecidableEq, Repr

/-- The constant `defaultName` of the lookup closure. -/
def defaultName : String := "<autogenerated>"

/-- `EntryFileReader`: the lookup closure it returns, applied to an entry; the
warnings it logs are not part of the result. -/
def EntryFileReader (cu : Entry) (d : Data) (entry : Entry) : Except RuntimeError String :=
  let files : List (Option LineFile) :=
    match (d.LineReader cu).1 with
    | some lr => lr.Files
    | none => []
  match entry.Val Attr.AttrTrampoline with
  | none =>
    match entry.Val Attr.AttrDeclFile with
    | none => .ok defaultName
    | some (AnyVal.int64 fileIndex) =>
      if fileIndex < 0 ∨ (fileIndex.toNat ≥ files.length) then .ok defaultName
      else
        match files[fileIndex.toNat]? with
        | some (some file) => .ok file.Name
        | some none => .error RuntimeError.nilDereference
        | none => .error RuntimeError.indexOutOfRange
    | some _ => .ok defaultName
  | some _ => .ok defaultName

/-- A memory reader that never succeeds. -/
def noMemory : MemoryReader :=
  fun _ _ => .error "unreadable"

/-- Reader helpers that all fail before reading memory. -/
def failingReaders : Readers where
  readString := fun _ _ => ((0, 0, some "read failed"), [])
  readSlice := fun _ _ _ => ((0, 0, some "read failed"), [])
  readEmbedFS := fun _ _ => (([], some "read failed"), [])

/-- Reader helpers that succeed after one read each: a string header
`(0x3000, 5)`, an empty slice, a bundle of one file. -/
def headerReaders : Readers where
  readString := fun _ _ => ((0x3000, 5, none), [{ addr := 0x1000, size := 16 }])
  readSlice := fun _ _ _ => ((0x4000, 0, none), [{ addr := 0x1000, size := 24 }])
  readEmbedFS := fun _ _ =>
    (([{ Name := "static/index.html", Addr := 0x5000, Size := 42 }], none),
      [{ addr := 0x1000, size := 8 }])

/-- A layout for a variable at `0x1000` on a 64-bit target, whose decoders
give the string header `(0x3000, 5)`, the slice header `(0x4000, 7)` and a
bundle of one file. -/
def demoLayout : Layout where
  varAddr := 0x1000
  word := 8
  tableSize := 24
  decodeString := fun _ => (0x3000, 5, none)
  decodeSlice := fun _ => (0x4000, 7, none)
  decodeEmbedFS := fun _ =>
    ([{ Name := "static/index.html", Addr := 0x5000, Size := 42 }], none)

/-- A memory whose every byte is zero. -/
def zeroMemory : MemoryReader :=
  fun _ n => .ok (List.replicate n 0)

/-- Debug data with a `string` struct at offset 1, a `[]uint8` struct at 2, a
typedef of an `embed.FS` struct at 3, a type of another shape at 4 and no type
elsewhere; its line reader has the file table `[nil, main.go]`. -/
def demoData : Data where
  Typ := fun off =>
    if off = 1 then .ok (DType.StructType { StructName := "string", ByteSize := 16 })
    else if off = 2 then .ok (DType.StructType { StructName := "[]uint8", ByteSize := 24 })
    else if off = 3 then
      .ok (DType.TypedefType (DType.StructType { StructName := "embed.FS", ByteSize := 8 }))
    else if off = 4 then .ok (DType.other 8)
    else .error "no type at offset"
  LineReader := fun _ => (some { Files := [none, some { Name := "main.go" }] }, none)

/-- A variable entry whose type attribute is the offset `off`. -/
def varEntry (off : Nat) : Entry :=
  { Field := [{ Attr := Attr.AttrType, Val := AnyVal.Offset off }] }

/-- An entry whose declared file is index 0 and that is no trampoline. -/
def fileZeroEntry : Entry :=
  { Field := [{ Attr := Attr.AttrDeclFile, Val := AnyVal.int64 0 }] }

/-- A compilation-unit entry; `demoData` gives every unit the same line reader. -/
def demoUnit : Entry :=
  { Field := [] }

/-- An entry marked inlined the way DWARF encodes it: `DW_AT_inline` with the
constant `DW_INL_inlined` (1), which `debug/dwarf` delivers as an `int64`. -/
def inlinedEntry : Entry :=
  { Field := [{ Attr := Attr.AttrInline, Val := AnyVal.int64 1 }] }

theorem coverStep_nil (r : AddrPos) : coverStep [] r = .ok [r] := rfl

theorem coverStep_concat (init : List AddrPos) (last r : AddrPos) :
    coverStep (init ++ [last]) r =
      if (last.Addr + last.Size) % W ≥ r.Addr then
        if last.Typ ≠ r.Typ then
          .error (Panic.typeConflict r.Addr last.Typ r.Typ)
        else if (last.Addr + last.Size) % W < (r.Addr + r.Size) % W then
          .ok (init ++
            [{ last with Size := ((r.Addr + r.Size) % W + W - last.Addr) % W }])
        else
          .ok (init ++ [last])
      else
        .ok (init ++ [last] ++ [r]) := by
  simp [coverStep]

theorem CoverInv.nil : CoverInv [] [] :=
  ⟨List.Pairwise.nil, by simp, by simp, by simp, by simp, by simp⟩

theorem CoverInv.step {done cover cover' : List AddrPos} {r : AddrPos}
    (inv : CoverInv done cover) (hs : ∀ d ∈ done, d.Addr ≤ r.Addr)
    (hr : r.Addr + r.Size < W) (h : coverStep cover r = .ok cover') :
    CoverInv (r :: done) cover' := by
  rcases cover.eq_nil_or_concat with rfl | ⟨init, last, h0⟩
  · rw [coverStep_nil] at h
    injection h with h
    subst h
    exact ⟨List.pairwise_singleton _ _, by simpa using hr,
      fun x hx => ⟨r, by simp, by
        rcases List.mem_cons.1 hx with rfl | hx
        · simp
        · obtain ⟨c, hc, -⟩ := inv.covers x hx
          simp at hc⟩,
      by simp, by simp, by
        intro c hc x h1 h2
        simp at hc
        subst hc
        exact ⟨c, by simp, h1, h2⟩⟩
  · rw [List.concat_eq_append] at h0
    subst h0
    have hl : last.Addr + last.Size < W := inv.bound last (by simp)
    have hla : last.Addr ≤ r.Addr := by
      obtain ⟨r0, hr0, -, h0⟩ := inv.start last (by simp)
      have := hs r0 hr0
      omega
    have hsep := List.pairwise_append.1 inv.sep
    have hlm : (last.Addr + last.Size) % W = last.Addr + last.Size := Nat.mod_eq_of_lt hl
    have hrm : (r.Addr + r.Size) % W = r.Addr + r.Size := Nat.mod_eq_of_lt hr
    rw [coverStep_concat, hlm, hrm] at h
    split_ifs at h with h1 h2 h3
    · -- merge, extending the last range
      injection h with h
      subst h
      have hsz : (r.Addr + r.Size + W - last.Addr) % W = r.Addr + r.Size - last.Addr := by
        simp only [W] at *; omega
      rw [hsz]
      refine ⟨?_, ?_, ?_, ?_, ?_, ?_⟩
      · refine List.pairwise_append.2 ⟨hsep.1, List.pairwise_singleton _ _, ?_⟩
        intro a ha b hb
        simp at hb
        subst hb
        exact hsep.2.2 a ha last (by simp)
      · intro c hc
        rcases List.mem_append.1 hc with hc | hc
        · exact inv.bound c (by simp [hc])
        · simp at hc
          subst hc
          simp only
          omega
      · intro x hx
        rcases List.mem_cons.1 hx with rfl | hx
        · exact ⟨{ last with Size := x.Addr + x.Size - last.Addr }, by simp,
            by simpa using (not_not.1 h2), hla, by simp only; omega⟩
        · obtain ⟨c, hc, h4, h5, h6⟩ := inv.covers x hx
          rcases List.mem_append.1 hc with hc | hc
          · exact ⟨c, by simp [hc], h4, h5, h6⟩
          · simp at hc
            subst hc
            exact ⟨{ c with Size := r.Addr + r.Size - c.Addr }, by simp, h4, h5,
              by simp only; omega⟩
      · intro c hc
        rcases List.mem_append.1 hc with hc | hc
        · obtain ⟨r0, hr0, h4⟩ := inv.start c (by simp [hc])
          exact ⟨r0, by simp [hr0], h4⟩
        · simp at hc
          subst hc
          obtain ⟨r0, hr0, h4⟩ := inv.start last (by simp)
          exact ⟨r0, by simp [hr0], h4⟩
      · intro c hc
        rcases List.mem_append.1 hc with hc | hc
        · obtain ⟨r0, hr0, h4⟩ := inv.fin c (by simp [hc])
          exact ⟨r0, by simp [hr0], h4⟩
        · simp at hc
          subst hc
          exact ⟨r, by simp, by simpa using (not_not.1 h2).symm, hla, by simp only; omega⟩
      · intro c hc x hx1 hx2
        rcases List.mem_append.1 hc with hc | hc
        · obtain ⟨r0, hr0, h4⟩ := inv.bytes c (by simp [hc]) x hx1 hx2
          exact ⟨r0, by simp [hr0], h4⟩
        · simp at hc
          subst hc
          simp only at hx1 hx2
          by_cases hx : x < last.Addr + last.Size
          · obtain ⟨r0, hr0, h4⟩ := inv.bytes last (by simp) x hx1 hx
            exact ⟨r0, by simp [hr0], h4⟩
          · exact ⟨r, by simp, by omega, by omega⟩
    · -- merge, the last range already reaches further
      injection h with h
      subst h
      refine ⟨inv.sep, inv.bound, ?_, ?_, ?_, ?_⟩
      · intro x hx
        rcases List.mem_cons.1 hx with rfl | hx
        · exact ⟨last, by simp, not_not.1 h2, hla, by omega⟩
        · exact inv.covers x hx
      · intro c hc
        obtain ⟨r0, hr0, h4⟩ := inv.start c hc
        exact ⟨r0, by simp [hr0], h4⟩
      · intro c hc
        obtain ⟨r0, hr0, h4⟩ := inv.fin c hc
        exact ⟨r0, by simp [hr0], h4⟩
      · intro c hc x hx1 hx2
        obtain ⟨r0, hr0, h4⟩ := inv.bytes c hc x hx1 hx2
        exact ⟨r0, by simp [hr0], h4⟩
    · -- a new range
      injection h with h
      subst h
      refine ⟨?_, ?_, ?_, ?_, ?_, ?_⟩
      · refine List.pairwise_append.2 ⟨inv.sep, List.pairwise_singleton _ _, ?_⟩
        intro a ha b hb
        simp at hb
        subst hb
        rcases List.mem_append.1 ha with ha | ha
        · have := hsep.2.2 a ha last (by simp)
          omega
        · simp at ha
          subst ha
          omega
      · intro c hc
        rcases List.mem_append.1 hc with hc | hc
        · exact inv.bound c hc
        · simp at hc
          subst hc
          exact hr
      · intro x hx
        rcases List.mem_cons.1 hx with rfl | hx
        · exact ⟨x, by simp, rfl, le_refl _, le_refl _⟩
        · obtain ⟨c, hc, h4⟩ := inv.covers x hx
          exact ⟨c, List.mem_append_left _ hc, h4⟩
      · intro c hc
        rcases List.mem_append.1 hc with hc | hc
        · obtain ⟨r0, hr0, h4⟩ := inv.start c hc
          exact ⟨r0, by simp [hr0], h4⟩
        · simp at hc
          subst hc
          exact ⟨c, by simp, rfl, rfl⟩
      · intro c hc
        rcases List.mem_append.1 hc with hc | hc
        · obtain ⟨r0, hr0, h4⟩ := inv.fin c hc
          exact ⟨r0, by simp [hr0], h4⟩
        · simp at hc
          subst hc
          exact ⟨c, by simp, rfl, le_refl _, rfl⟩
      · intro c hc x hx1 hx2
        rcases List.mem_append.1 hc with hc | hc
        · obtain ⟨r0, hr0, h4⟩ := inv.bytes c hc x hx1 hx2
          exact ⟨r0, by simp [hr0], h4⟩
        · simp at hc
          subst hc
          exact ⟨c, by simp, hx1, hx2⟩

theorem coverLoop_inv (rs : List AddrPos) :
    ∀ (done cover out : List AddrPos), CoverInv done cover →
      (∀ d ∈ done, ∀ r ∈ rs, d.Addr ≤ r.Addr) →
      rs.Pairwise (fun a b => a.Addr ≤ b.Addr) →
      (∀ r ∈ rs, r.Addr + r.Size < W) →
      coverLoop cover rs = .ok out → CoverInv (rs.reverse ++ done) out := by
  induction rs with
  | nil =>
    intro done cover out inv _ _ _ h
    simp only [coverLoop] at h
    injection h with h
    subst h
    simpa using inv
  | cons r rs ih =>
    intro done cover out inv hd hp hw h
    simp only [coverLoop] at h
    cases hstep : coverStep cover r with
    | error e => rw [hstep] at h; cases h
    | ok cover' =>
      rw [hstep] at h
      have inv' := inv.step (fun d hd' => hd d hd' r (by simp)) (hw r (by simp)) hstep
      have hp' := List.pairwise_cons.1 hp
      have := ih (r :: done) cover' out inv'
        (by
          intro d hd' x hx
          rcases List.mem_cons.1 hd' with rfl | hd'
          · exact hp'.1 x hx
          · exact hd d hd' x (by simp [hx]))
        hp'.2 (fun x hx => hw x (by simp [hx])) h
      simpa using this

theorem coverStep_error {done cover : List AddrPos} {r : AddrPos} {e : Panic}
    (inv : CoverInv done cover) (hs : ∀ d ∈ done, d.Addr ≤ r.Addr)
    (h : coverStep cover r = .error e) :
    ∃ r1 ∈ done, r1.Typ ≠ r.Typ ∧ r1.Addr ≤ r.Addr ∧ r.Addr ≤ r1.Addr + r1.Size := by
  rcases cover.eq_nil_or_concat with rfl | ⟨init, last, h0⟩
  · rw [coverStep_nil] at h
    cases h
  · rw [List.concat_eq_append] at h0
    subst h0
    have hl : last.Addr + last.Size < W := inv.bound last (by simp)
    rw [coverStep_concat, Nat.mod_eq_of_lt hl] at h
    split_ifs at h with h1 h2 h3
    obtain ⟨r1, hr1, ht, -, he⟩ := inv.fin last (by simp)
    exact ⟨r1, hr1, by rw [ht]; exact h2, hs r1 hr1, by omega⟩

theorem coverLoop_error (rs : List AddrPos) :
    ∀ (done cover : List AddrPos) (e : Panic), CoverInv done cover →
      (∀ d ∈ done, ∀ r ∈ rs, d.Addr ≤ r.Addr) →
      rs.Pairwise (fun a b => a.Addr ≤ b.Addr) →
      (∀ r ∈ rs, r.Addr + r.Size < W) →
      coverLoop cover rs = .error e →
      ∃ r1 ∈ rs ++ done, ∃ r2 ∈ rs ++ done,
        r1.Typ ≠ r2.Typ ∧ r1.Addr ≤ r2.Addr ∧ r2.Addr ≤ r1.Addr + r1.Size := by
  induction rs with
  | nil =>
    intro done cover e _ _ _ _ h
    simp [coverLoop] at h
  | cons r rs ih =>
    intro done cover e inv hd hp hw h
    simp only [coverLoop] at h
    have hp' := List.pairwise_cons.1 hp
    cases hstep : coverStep cover r with
    | error e' =>
      obtain ⟨r1, hr1, h1⟩ := coverStep_error inv (fun d hd' => hd d hd' r (by simp)) hstep
      exact ⟨r1, by simp [hr1], r, by simp, h1⟩
    | ok cover' =>
      rw [hstep] at h
      have inv' := inv.step (fun d hd' => hd d hd' r (by simp)) (hw r (by simp)) hstep
      obtain ⟨r1, hr1, r2, hr2, h1⟩ := ih (r :: done) cover' e inv'
        (by
          intro d hd' x hx
          rcases List.mem_cons.1 hd' with rfl | hd'
          · exact hp'.1 x hx
          · exact hd d hd' x (by simp [hx]))
        hp'.2 (fun x hx => hw x (by simp [hx])) h
      refine ⟨r1, ?_, r2, ?_, h1⟩
      · simp at hr1 ⊢; tauto
      · simp at hr2 ⊢; tauto

theorem CoverInv.no_conflict {done cover : List AddrPos} (inv : CoverInv done cover)
    {r1 r2 : AddrPos} (h1 : r1 ∈ done) (h2 : r2 ∈ done) (ht : r1.Typ ≠ r2.Typ)
    (ha : r1.Addr ≤ r2.Addr) (hb : r2.Addr ≤ r1.Addr + r1.Size) : False := by
  obtain ⟨c1, hc1, t1, a1, e1⟩ := inv.covers r1 h1
  obtain ⟨c2, hc2, t2, a2, e2⟩ := inv.covers r2 h2
  have hne : c1 ≠ c2 := by
    rintro rfl
    exact ht (t1.symm.trans t2)
  have hsym : cover.Pairwise
      (fun c d => c.Addr + c.Size < d.Addr ∨ d.Addr + d.Size < c.Addr) :=
    inv.sep.imp (fun h => Or.inl h)
  have := hsym.forall (fun _ _ h => h.symm) hc1 hc2 hne
  omega

theorem mem_foldl_uniq (l : List AddrPos) :
    ∀ (acc : List AddrPos) (x : AddrPos),
      x ∈ l.foldl (fun result y => if y ∈ result then result else result ++ [y]) acc ↔
        x ∈ acc ∨ x ∈ l := by
  induction l with
  | nil => intro acc x; simp
  | cons y l ih =>
    intro acc x
    rw [List.foldl_cons, ih]
    by_cases hy : y ∈ acc
    · simp only [hy, if_true, List.mem_cons]
      constructor
      · rintro (h | h)
        · exact Or.inl h
        · exact Or.inr (Or.inr h)
      · rintro (h | rfl | h)
        · exact Or.inl h
        · exact Or.inl hy
        · exact Or.inr h
    · simp only [hy, if_false, List.mem_append, List.mem_singleton, List.mem_cons]
      tauto

theorem mem_Uniq (l : List AddrPos) (x : AddrPos) : x ∈ Uniq l ↔ x ∈ l := by
  simp [Uniq, mem_foldl_uniq]

theorem coverageCmp_le {a b : AddrPos} (h : coverageCmp a b ≤ 0) : a.Addr ≤ b.Addr := by
  unfold coverageCmp cmpCompare at h
  split_ifs at h <;> omega

theorem mem_sortedRanges {R : Runtime} (hR : R.Valid) (a : AddrSpace)
    (coverages : List AddrCoverage) (x : AddrPos) :
    x ∈ sortedRanges R a coverages ↔ x ∈ inputRanges a coverages := by
  unfold sortedRanges inputRanges MapToSlice
  rw [(hR.2.1 _).mem_iff, mem_Uniq, List.mem_append, List.mem_append,
    ((hR.1 a).map _).mem_iff]

theorem sortedRanges_sorted {R : Runtime} (hR : R.Valid) (a : AddrSpace)
    (coverages : List AddrCoverage) :
    (sortedRanges R a coverages).Pairwise (fun x y => x.Addr ≤ y.Addr) :=
  (hR.2.2 _).imp coverageCmp_le

/-- The merge loop of `GetCoverage` keeps `CoverInv` up to its result. -/
theorem GetCoverage_inv {R : Runtime} (hR : R.Valid) {a : AddrSpace}
    {coverages : List AddrCoverage} {cov : AddrCoverage}
    (hw : ∀ r ∈ inputRanges a coverages, r.Addr + r.Size < W)
    (h : a.GetCoverage R coverages = .ok cov) :
    CoverInv (inputRanges a coverages) cov := by
  have := coverLoop_inv (sortedRanges R a coverages) [] [] cov CoverInv.nil (by simp)
    (sortedRanges_sorted hR a coverages)
    (fun r hr => hw r ((mem_sortedRanges hR a coverages r).1 hr)) h
  simp only [List.append_nil] at this
  exact ⟨this.sep, this.bound,
    fun r hr => this.covers r (by simpa [mem_sortedRanges hR] using hr),
    fun c hc => by
      obtain ⟨r, hr, h⟩ := this.start c hc
      exact ⟨r, by simpa [mem_sortedRanges hR] using hr, h⟩,
    fun c hc => by
      obtain ⟨r, hr, h⟩ := this.fin c hc
      exact ⟨r, by simpa [mem_sortedRanges hR] using hr, h⟩,
    fun c hc x h1 h2 => by
      obtain ⟨r, hr, h⟩ := this.bytes c hc x h1 h2
      exact ⟨r, by simpa [mem_sortedRanges hR] using hr, h⟩⟩

theorem stdRuntime_valid : stdRuntime.Valid :=
  ⟨fun _ => List.Perm.refl _, fun l => List.perm_insertionSort _ l,
    fun l => List.sorted_insertionSort _ l⟩

/-- The loop of `slices.BinarySearchFunc` finds the partition point of a list
whose elements comparing below the target form a prefix; `fuel ≥ j - i`
iterations are enough for it to stop with `i = j`. -/
theorem binarySearchLoop_spec (x : List AddrPos) (cmp : AddrPos → Int)
    (hmono : ∀ (a b : Nat) (ea eb : AddrPos), a < b → x[a]? = some ea → x[b]? = some eb →
      cmp eb < 0 → cmp ea < 0) :
    ∀ (fuel i j : Nat), i ≤ j → j ≤ x.length → j - i ≤ fuel →
      (∀ (k : Nat) (e : AddrPos), k < i → x[k]? = some e → cmp e < 0) →
      (∀ (k : Nat) (e : AddrPos), j ≤ k → x[k]? = some e → ¬ cmp e < 0) →
      (∀ (k : Nat) (e : AddrPos), k < binarySearchLoop x cmp fuel i j → x[k]? = some e → cmp e < 0) ∧
      (∀ (k : Nat) (e : AddrPos), binarySearchLoop x cmp fuel i j ≤ k → x[k]? = some e → ¬ cmp e < 0) ∧
      binarySearchLoop x cmp fuel i j ≤ x.length := by
  intro fuel
  induction fuel with
  | zero =>
    intro i j hij hj hf lo hi
    have : i = j := by omega
    subst this
    exact ⟨by simpa [binarySearchLoop] using lo, by simpa [binarySearchLoop] using hi,
      by simpa [binarySearchLoop] using hj⟩
  | succ fuel ih =>
    intro i j hij hj hf lo hi
    by_cases hlt : i < j
    · have hh : (i + j) / 2 < x.length := by omega
      have hget : x[(i + j) / 2]? = some x[(i + j) / 2] := List.getElem?_eq_getElem hh
      by_cases hc : cmp x[(i + j) / 2] < 0
      · have hrec := ih ((i + j) / 2 + 1) j (by omega) hj (by omega)
          (by
            intro k e hk he
            rcases Nat.lt_succ_iff_lt_or_eq.1 hk with hk | rfl
            · exact hmono k _ e _ hk he hget hc
            · rw [hget] at he
              injection he with he
              subst he
              exact hc)
          hi
        simpa [binarySearchLoop, hlt, hget, hc] using hrec
      · have hrec := ih i ((i + j) / 2) (by omega) (by omega) (by omega) lo
          (by
            intro k e hk he hlt'
            rcases Nat.eq_or_lt_of_le hk with rfl | hk
            · rw [hget] at he
              injection he with he
              subst he
              exact hc hlt'
            · exact hc (hmono _ k _ e hk hget he hlt'))
        simpa [binarySearchLoop, hlt, hget, hc] using hrec
    · have : i = j := by omega
      subst this
      exact ⟨by simpa [binarySearchLoop] using lo, by simpa [binarySearchLoop] using hi,
        by simpa [binarySearchLoop] using hj⟩

/-- On a coverage whose ranges are separated and do not wrap, and for a span
that does not wrap, the binary search of `SymbolCovHas` reports a hit exactly
when some range `c` has `c.Addr < addr + size` and `addr < c.Addr + c.Size`. -/
theorem covSearch_iff (cov : List AddrPos)
    (hsep : cov.Pairwise (fun c d => c.Addr + c.Size < d.Addr))
    (hb : ∀ c ∈ cov, c.Addr + c.Size < W) (addr size : Nat) (hw : addr + size < W) :
    (BinarySearchFunc cov { Addr := addr, Size := 0, Typ := "" } (symbolCovCmp size)).2 = true ↔
      ∃ c ∈ cov, c.Addr < addr + size ∧ addr < c.Addr + c.Size := by
  have hmem : ∀ (k : Nat) (e : AddrPos), cov[k]? = some e → e ∈ cov := fun k e h =>
    List.mem_iff_getElem?.2 ⟨k, h⟩
  have hneg : ∀ e ∈ cov,
      (symbolCovCmp size e { Addr := addr, Size := 0, Typ := "" } < 0 ↔
        e.Addr + e.Size ≤ addr) := by
    intro e he
    have := hb e he
    unfold symbolCovCmp
    rw [Nat.mod_eq_of_lt this, Nat.mod_eq_of_lt hw]
    split_ifs <;> simp_all
  have hzero : ∀ e ∈ cov,
      (symbolCovCmp size e { Addr := addr, Size := 0, Typ := "" } = 0 ↔
        e.Addr < addr + size ∧ addr < e.Addr + e.Size) := by
    intro e he
    have := hb e he
    unfold symbolCovCmp
    rw [Nat.mod_eq_of_lt this, Nat.mod_eq_of_lt hw]
    split_ifs <;> simp_all
  have hidx := List.pairwise_iff_getElem.1 hsep
  have hord : ∀ (a b : Nat) (ea eb : AddrPos), a < b → cov[a]? = some ea → cov[b]? = some eb →
      ea.Addr + ea.Size < eb.Addr := by
    intro a b ea eb hab ha hb'
    obtain ⟨h1, rfl⟩ := List.getElem?_eq_some.1 ha
    obtain ⟨h2, rfl⟩ := List.getElem?_eq_some.1 hb'
    exact hidx a b h1 h2 hab
  have hmono : ∀ (a b : Nat) (ea eb : AddrPos), a < b → cov[a]? = some ea → cov[b]? = some eb →
      symbolCovCmp size eb { Addr := addr, Size := 0, Typ := "" } < 0 →
      symbolCovCmp size ea { Addr := addr, Size := 0, Typ := "" } < 0 := by
    intro a b ea eb hab ha hb' hlt
    rw [hneg eb (hmem b eb hb')] at hlt
    rw [hneg ea (hmem a ea ha)]
    have := hord a b ea eb hab ha hb'
    omega
  obtain ⟨hlo, hhi, hlen⟩ := binarySearchLoop_spec cov
    (fun e => symbolCovCmp size e { Addr := addr, Size := 0, Typ := "" }) hmono
    cov.length 0 cov.length (Nat.zero_le _) (le_refl _) (by omega)
    (by intro k e hk; omega)
    (by
      intro k e hk he
      rw [List.getElem?_eq_none hk] at he
      cases he)
  unfold BinarySearchFunc
  simp only
  generalize binarySearchLoop cov
    (fun e => symbolCovCmp size e { Addr := addr, Size := 0, Typ := "" })
    cov.length 0 cov.length = m at hlo hhi hlen
  cases hm : cov[m]? with
  | none =>
    simp only [Bool.false_eq_true, false_iff]
    rintro ⟨c, hc, h1, h2⟩
    obtain ⟨k, hk⟩ := List.mem_iff_getElem?.1 hc
    have hkm : m ≤ k := by
      by_contra hcon
      have := (hneg c hc).1 (hlo k c (by omega) hk)
      omega
    have hmlen : cov.length ≤ m := List.getElem?_eq_none_iff.1 hm
    have hklen : k < cov.length := (List.getElem?_eq_some.1 hk).1
    omega
  | some e =>
    simp only [decide_eq_true_eq]
    have he := hmem m e hm
    rw [hzero e he]
    constructor
    · intro h
      exact ⟨e, he, h⟩
    · rintro ⟨c, hc, h1, h2⟩
      obtain ⟨k, hk⟩ := List.mem_iff_getElem?.1 hc
      have hkm : m ≤ k := by
        by_contra hcon
        have := (hneg c hc).1 (hlo k c (by omega) hk)
        omega
      have hnot : ¬ e.Addr + e.Size ≤ addr := fun h =>
        hhi m e (le_refl _) hm ((hneg e he).2 h)
      rcases Nat.eq_or_lt_of_le hkm with rfl | hlt
      · rw [hm] at hk
        injection hk with hk
        subst hk
        exact ⟨h1, h2⟩
      · have := hord m k e c hlt hm hk
        omega

theorem Get_nil (k : Nat) : AddrSpace.Get [] k = none := rfl

theorem Get_cons (p : Nat × Addr) (a : AddrSpace) (k : Nat) :
    AddrSpace.Get (p :: a) k = if p.1 = k then some p.2 else AddrSpace.Get a k := by
  unfold AddrSpace.Get
  by_cases h : p.1 = k <;> simp [List.find?_cons, h]

theorem Get_set (a : AddrSpace) (k : Nat) (v : Addr) (k' : Nat) :
    AddrSpace.Get (AddrSpace.set a k v) k' =
      if k' = k then some v else AddrSpace.Get a k' := by
  induction a with
  | nil =>
    simp only [AddrSpace.set, Get_cons, Get_nil]
    by_cases h : k = k'
    · simp [h]
    · simp [h, Ne.symm h]
  | cons p rest ih =>
    simp only [AddrSpace.set]
    by_cases hp : p.1 = k
    · simp only [hp, beq_self_eq_true, if_true, Get_cons]
      by_cases h : k = k'
      · simp [h]
      · simp [h, Ne.symm h]
    · have hp' : (p.1 == k) = false := by simpa using hp
      simp only [hp', Bool.false_eq_true, if_false, Get_cons, ih]
      by_cases h : p.1 = k'
      · have : ¬ k' = k := fun e => hp (h.trans e)
        simp [h, this]
      · simp [h]

theorem Get_Insert (a : AddrSpace) (x : Addr) (k : Nat) :
    AddrSpace.Get (a.Insert x) k =
      if k = x.pos.Addr then
        match a.Get x.pos.Addr with
        | some old => if old.pos.Size < x.pos.Size then some x else some old
        | none => some x
      else a.Get k := by
  unfold AddrSpace.Insert
  cases hg : AddrSpace.Get a x.pos.Addr with
  | none =>
    simp only [Get_set]
  | some old =>
    by_cases hs : old.pos.Size < x.pos.Size
    · simp only [hs, if_true, Get_set]
    · simp only [hs, if_false]
      by_cases hk : k = x.pos.Addr
      · simp [hk, hg]
      · simp [hk]

theorem insertAll_concat (l : List Addr) (x : Addr) :
    insertAll (l ++ [x]) = (insertAll l).Insert x := by
  simp [insertAll, List.foldl_append]

theorem Get_none_iff (a : AddrSpace) (k : Nat) :
    a.Get k = none ↔ ∀ p ∈ a, p.1 ≠ k := by
  induction a with
  | nil => simp [Get_nil]
  | cons p rest ih =>
    rw [Get_cons]
    by_cases h : p.1 = k
    · simp [h]
    · simp [h, ih]

theorem mem_set {a : AddrSpace} {k : Nat} {v : Addr} {p : Nat × Addr}
    (h : p ∈ AddrSpace.set a k v) : p = (k, v) ∨ p ∈ a := by
  induction a with
  | nil =>
    simp only [AddrSpace.set, List.mem_singleton] at h
    exact Or.inl h
  | cons q rest ih =>
    simp only [AddrSpace.set] at h
    split_ifs at h with hq
    · rcases List.mem_cons.1 h with h | h
      · exact Or.inl h
      · exact Or.inr (List.mem_cons_of_mem _ h)
    · rcases List.mem_cons.1 h with h | h
      · exact Or.inr (by simp [h])
      · rcases ih h with h | h
        · exact Or.inl h
        · exact Or.inr (List.mem_cons_of_mem _ h)

theorem mem_Insert {a : AddrSpace} {x : Addr} {p : Nat × Addr}
    (h : p ∈ a.Insert x) : p = (x.pos.Addr, x) ∨ p ∈ a := by
  unfold AddrSpace.Insert at h
  split at h
  · split_ifs at h
    · exact mem_set h
    · exact Or.inr h
  · exact mem_set h

theorem KeysMatch.Insert {a : AddrSpace} (h : KeysMatch a) (x : Addr) :
    KeysMatch (a.Insert x) := by
  intro p hp
  rcases mem_Insert hp with rfl | hp
  · rfl
  · exact h p hp

theorem Get_insertAll_none_iff (l : List Addr) (addr : Nat) :
    (insertAll l).Get addr = none ↔ ∀ e ∈ l, e.pos.Addr ≠ addr := by
  induction l using List.reverseRecOn with
  | nil => simp [insertAll, Get_nil]
  | append_singleton l x ih =>
    rw [insertAll_concat, Get_Insert]
    by_cases hk : addr = x.pos.Addr
    · simp only [hk, if_true]
      constructor
      · intro h
        cases hg : AddrSpace.Get (insertAll l) x.pos.Addr with
        | none => rw [hg] at h; cases h
        | some old =>
          rw [hg] at h
          simp only at h
          split_ifs at h
      · intro h
        exact (h x (by simp) rfl).elim
    · simp only [hk, if_false, ih, List.mem_append, List.mem_singleton]
      constructor
      · rintro h e (he | rfl)
        · exact h e he
        · exact fun e' => hk e'.symm
      · exact fun h e he => h e (Or.inl he)


theorem coverLoop_separated (rs : List AddrPos) :
    ∀ cover : List AddrPos,
      (cover ++ rs).Pairwise (fun c d => c.Addr + c.Size < d.Addr) →
      (∀ c ∈ cover ++ rs, c.Addr + c.Size < W) →
      coverLoop cover rs = .ok (cover ++ rs) := by
  induction rs with
  | nil => intro cover _ _; simp [coverLoop]
  | cons r rs ih =>
    intro cover hp hb
    have hstep : coverStep cover r = .ok (cover ++ [r]) := by
      rcases cover.eq_nil_or_concat with rfl | ⟨init, last, h0⟩
      · exact coverStep_nil r
      · rw [List.concat_eq_append] at h0
        subst h0
        have hl : last.Addr + last.Size < W := hb last (by simp)
        have hlr : last.Addr + last.Size < r.Addr :=
          (List.pairwise_append.1 hp).2.2 last (by simp) r (by simp)
        rw [coverStep_concat, Nat.mod_eq_of_lt hl]
        have : ¬ last.Addr + last.Size ≥ r.Addr := by omega
        simp [this]
    simp only [coverLoop, hstep]
    have := ih (cover ++ [r]) (by simpa using hp) (by simpa using hb)
    simpa using this

theorem foldl_uniq_of_nodup (l : List AddrPos) :
    ∀ acc : List AddrPos, (acc ++ l).Nodup →
      l.foldl (fun result y => if y ∈ result then result else result ++ [y]) acc = acc ++ l := by
  induction l with
  | nil => intro acc _; simp
  | cons y l ih =>
    intro acc hn
    have hy : y ∉ acc := by
      intro hy
      have := (List.nodup_append.1 hn).2.2
      exact this hy (List.mem_cons_self _ _)
    rw [List.foldl_cons]
    simp only [hy, if_false]
    have := ih (acc ++ [y]) (by simpa using hn)
    simpa using this

theorem Uniq_of_nodup {l : List AddrPos} (h : l.Nodup) : Uniq l = l := by
  have := foldl_uniq_of_nodup l [] (by simpa using h)
  simpa [Uniq] using this

theorem separated_nodup {cov : List AddrPos}
    (h : cov.Pairwise (fun c d => c.Addr + c.Size < d.Addr)) : cov.Nodup :=
  h.imp (fun {a b} hab heq => by subst heq; omega)

/-- A list sorted by the `GetCoverage` comparator that permutes a separated
list is that list. -/
theorem sorted_perm_separated {s cov : List AddrPos}
    (hsep : cov.Pairwise (fun c d => c.Addr + c.Size < d.Addr))
    (hperm : s.Perm cov) (hs : s.Pairwise (fun a b => coverageCmp a b ≤ 0)) : s = cov := by
  haveI : IsAntisymm AddrPos (fun a b => a.Addr < b.Addr) :=
    ⟨fun a b h1 h2 => absurd h1 (by omega)⟩
  have hnd : s.Nodup := hperm.nodup_iff.2 (separated_nodup hsep)
  have hsym : cov.Pairwise
      (fun c d => c.Addr + c.Size < d.Addr ∨ d.Addr + d.Size < c.Addr) :=
    hsep.imp (fun h => Or.inl h)
  have h1 : s.Pairwise (fun a b => a.Addr < b.Addr) := by
    refine (hs.and hnd).imp_of_mem ?_
    intro a b ha hb hab
    have hle := coverageCmp_le hab.1
    have := hsym.forall (fun _ _ h => h.symm) (hperm.mem_iff.1 ha) (hperm.mem_iff.1 hb) hab.2
    omega
  have h2 : cov.Pairwise (fun a b => a.Addr < b.Addr) := hsep.imp (fun h => by omega)
  exact List.eq_of_perm_of_sorted hperm h1 h2

/-- `GetCoverage` on an input that permutes a separated, non-wrapping list
returns that list. -/
theorem GetCoverage_of_separated {R : Runtime} (hR : R.Valid) {a : AddrSpace}
    {coverages : List AddrCoverage} {cov : List AddrPos}
    (hsep : cov.Pairwise (fun c d => c.Addr + c.Size < d.Addr))
    (hb : ∀ c ∈ cov, c.Addr + c.Size < W)
    (hperm : (inputRanges a coverages).Perm cov) :
    a.GetCoverage R coverages = .ok cov := by
  have hin : (MapToSlice R a ++ coverages.flatten).Perm cov := by
    refine List.Perm.trans ?_ hperm
    unfold MapToSlice inputRanges
    exact List.Perm.append_right _ ((hR.1 a).map _)
  have hnd : (MapToSlice R a ++ coverages.flatten).Nodup :=
    hin.nodup_iff.2 (separated_nodup hsep)
  have hs : sortedRanges R a coverages = cov := by
    refine sorted_perm_separated hsep ?_ (hR.2.2 _)
    unfold sortedRanges
    rw [Uniq_of_nodup hnd]
    exact (hR.2.1 _).trans hin
  unfold AddrSpace.GetCoverage
  rw [hs]
  simpa using coverLoop_separated cov [] (by simpa using hsep) (by simpa using hb)

theorem coverConn_nil : CoverConn [] [] := by
  intro c hc
  simp at hc

theorem coverConn_step {done cover cover' : List AddrPos} {r : AddrPos}
    (inv : CoverInv done cover) (conn : CoverConn done cover)
    (hs : ∀ d ∈ done, d.Addr ≤ r.Addr) (hr : r.Addr + r.Size < W)
    (h : coverStep cover r = .ok cover') : CoverConn (r :: done) cover' := by
  have hold : ∀ c ∈ cover, ∀ x, c.Addr < x → x ≤ c.Addr + c.Size →
      ∃ q ∈ r :: done, q.Addr < x ∧ x ≤ q.Addr + q.Size := by
    intro c hc x h1 h2
    obtain ⟨q, hq, h3⟩ := conn c hc x h1 h2
    exact ⟨q, List.mem_cons_of_mem _ hq, h3⟩
  rcases cover.eq_nil_or_concat with rfl | ⟨init, last, h0⟩
  · rw [coverStep_nil] at h
    injection h with h
    subst h
    intro c hc x h1 h2
    simp only [List.mem_singleton] at hc
    subst hc
    exact ⟨c, by simp, h1, h2⟩
  · rw [List.concat_eq_append] at h0
    subst h0
    have hl : last.Addr + last.Size < W := inv.bound last (by simp)
    have hla : last.Addr ≤ r.Addr := by
      obtain ⟨r0, hr0, -, h0⟩ := inv.start last (by simp)
      have := hs r0 hr0
      omega
    rw [coverStep_concat, Nat.mod_eq_of_lt hl, Nat.mod_eq_of_lt hr] at h
    split_ifs at h with h1 h2 h3
    · injection h with h
      subst h
      have hsz : (r.Addr + r.Size + W - last.Addr) % W = r.Addr + r.Size - last.Addr := by
        simp only [W] at *; omega
      rw [hsz]
      intro c hc x hx1 hx2
      rcases List.mem_append.1 hc with hc | hc
      · exact hold c (by simp [hc]) x hx1 hx2
      · simp only [List.mem_singleton] at hc
        subst hc
        simp only at hx1 hx2
        by_cases hx : x ≤ last.Addr + last.Size
        · exact hold last (by simp) x hx1 hx
        · exact ⟨r, by simp, by omega, by omega⟩
    · injection h with h
      subst h
      exact hold
    · injection h with h
      subst h
      intro c hc x hx1 hx2
      rcases List.mem_append.1 hc with hc | hc
      · exact hold c hc x hx1 hx2
      · simp only [List.mem_singleton] at hc
        subst hc
        exact ⟨c, by simp, hx1, hx2⟩

theorem coverLoop_conn (rs : List AddrPos) :
    ∀ (done cover out : List AddrPos), CoverInv done cover → CoverConn done cover →
      (∀ d ∈ done, ∀ r ∈ rs, d.Addr ≤ r.Addr) →
      rs.Pairwise (fun a b => a.Addr ≤ b.Addr) →
      (∀ r ∈ rs, r.Addr + r.Size < W) →
      coverLoop cover rs = .ok out → CoverConn (rs.reverse ++ done) out := by
  induction rs with
  | nil =>
    intro done cover out _ conn _ _ _ h
    simp only [coverLoop] at h
    injection h with h
    subst h
    simpa using conn
  | cons r rs ih =>
    intro done cover out inv conn hd hp hw h
    simp only [coverLoop] at h
    cases hstep : coverStep cover r with
    | error e => rw [hstep] at h; cases h
    | ok cover' =>
      rw [hstep] at h
      have inv' := inv.step (fun d hd' => hd d hd' r (by simp)) (hw r (by simp)) hstep
      have conn' := coverConn_step inv conn (fun d hd' => hd d hd' r (by simp))
        (hw r (by simp)) hstep
      have hp' := List.pairwise_cons.1 hp
      have := ih (r :: done) cover' out inv' conn'
        (by
          intro d hd' x hx
          rcases List.mem_cons.1 hd' with rfl | hd'
          · exact hp'.1 x hx
          · exact hd d hd' x (by simp [hx]))
        hp'.2 (fun x hx => hw x (by simp [hx])) h
      simpa using this

theorem GetCoverage_conn {R : Runtime} (hR : R.Valid) {a : AddrSpace}
    {coverages : List AddrCoverage} {cov : AddrCoverage}
    (hw : ∀ r ∈ inputRanges a coverages, r.Addr + r.Size < W)
    (h : a.GetCoverage R coverages = .ok cov) :
    CoverConn (inputRanges a coverages) cov := by
  have := coverLoop_conn (sortedRanges R a coverages) [] [] cov CoverInv.nil coverConn_nil
    (by simp) (sortedRanges_sorted hR a coverages)
    (fun r hr => hw r ((mem_sortedRanges hR a coverages r).1 hr)) h
  simp only [List.append_nil] at this
  intro c hc x h1 h2
  obtain ⟨r, hr, h3⟩ := this c hc x h1 h2
  exact ⟨r, by simpa [mem_sortedRanges hR] using hr, h3⟩

theorem GetCoverage_error_conflict {R : Runtime} (hR : R.Valid) {a : AddrSpace}
    {coverages : List AddrCoverage} {e : Panic}
    (hw : ∀ r ∈ inputRanges a coverages, r.Addr + r.Size < W)
    (h : a.GetCoverage R coverages = .error e) :
    ∃ r1 ∈ inputRanges a coverages, ∃ r2 ∈ inputRanges a coverages,
      r1.Typ ≠ r2.Typ ∧ r1.Addr ≤ r2.Addr ∧ r2.Addr ≤ r1.Addr + r1.Size := by
  obtain ⟨r1, h1, r2, h2, h3⟩ :=
    coverLoop_error (sortedRanges R a coverages) [] [] e CoverInv.nil (by simp)
      (sortedRanges_sorted hR a coverages)
      (fun r hr => hw r ((mem_sortedRanges hR a coverages r).1 hr)) h
  rw [List.append_nil] at h1 h2
  exact ⟨r1, (mem_sortedRanges hR a coverages r1).1 h1, r2,
    (mem_sortedRanges hR a coverages r2).1 h2, h3⟩

theorem coverInv_congr {S S' cover : List AddrPos} (hS : ∀ x, x ∈ S → x ∈ S')
    (hS' : ∀ x, x ∈ S' → x ∈ S) (inv : CoverInv S cover) : CoverInv S' cover :=
  ⟨inv.sep, inv.bound,
    fun r hr => inv.covers r (hS' r hr),
    fun c hc => by
      obtain ⟨r, hr, h⟩ := inv.start c hc
      exact ⟨r, hS r hr, h⟩,
    fun c hc => by
      obtain ⟨r, hr, h⟩ := inv.fin c hc
      exact ⟨r, hS r hr, h⟩,
    fun c hc x h1 h2 => by
      obtain ⟨r, hr, h⟩ := inv.bytes c hc x h1 h2
      exact ⟨r, hS r hr, h⟩⟩

theorem coverConn_congr {S S' cover : List AddrPos} (hS : ∀ x, x ∈ S → x ∈ S')
    (conn : CoverConn S cover) : CoverConn S' cover := by
  intro c hc x h1 h2
  obtain ⟨r, hr, h⟩ := conn c hc x h1 h2
  exact ⟨r, hS r hr, h⟩

theorem separated_symm {cover : List AddrPos}
    (hsep : cover.Pairwise (fun c d => c.Addr + c.Size < d.Addr))
    {c d : AddrPos} (hc : c ∈ cover) (hd : d ∈ cover) (hne : c ≠ d) :
    c.Addr + c.Size < d.Addr ∨ d.Addr + d.Size < c.Addr :=
  (hsep.imp (fun h => Or.inl h) :
    cover.Pairwise (fun c d => c.Addr + c.Size < d.Addr ∨ d.Addr + d.Size < c.Addr)).forall
      (fun _ _ h => h.symm) hc hd hne

/-- Two covers of the same input start their ranges at the same addresses. -/
theorem cover_start_shared {S cov1 cov2 : List AddrPos}
    (inv1 : CoverInv S cov1) (inv2 : CoverInv S cov2) (conn2 : CoverConn S cov2)
    {c1 : AddrPos} (hc1 : c1 ∈ cov1) :
    ∃ c2 ∈ cov2, c2.Addr = c1.Addr ∧ c2.Typ = c1.Typ := by
  obtain ⟨r, hr, ht, ha⟩ := inv1.start c1 hc1
  obtain ⟨c2, hc2, t2, a2, e2⟩ := inv2.covers r hr
  refine ⟨c2, hc2, ?_, t2.trans ht⟩
  by_contra hne
  have hlt : c2.Addr < c1.Addr := by omega
  obtain ⟨q, hq, q1, q2⟩ := conn2 c2 hc2 c1.Addr hlt (by omega)
  obtain ⟨d, hd, -, d1, d2⟩ := inv1.covers q hq
  have hdc : d ≠ c1 := by
    rintro rfl
    omega
  have := separated_symm inv1.sep hd hc1 hdc
  omega

/-- Of two covers of the same input, ranges with one start have one end. -/
theorem cover_end_le {S cov1 cov2 : List AddrPos}
    (inv1 : CoverInv S cov1) (conn1 : CoverConn S cov1) (inv2 : CoverInv S cov2)
    {c1 c2 : AddrPos} (hc1 : c1 ∈ cov1) (hc2 : c2 ∈ cov2) (ha : c1.Addr = c2.Addr) :
    c1.Addr + c1.Size ≤ c2.Addr + c2.Size := by
  obtain ⟨rf, hrf, -, f1, f2⟩ := inv1.fin c1 hc1
  obtain ⟨d, hd, -, d1, d2⟩ := inv2.covers rf hrf
  by_cases hdc : d = c2
  · subst hdc
    omega
  · have hs := separated_symm inv2.sep hd hc2 hdc
    by_contra hcon
    have hx1 : c1.Addr < d.Addr := by omega
    obtain ⟨q, hq, q1, q2⟩ := conn1 c1 hc1 d.Addr hx1 (by omega)
    obtain ⟨d', hd', -, e1, e2⟩ := inv2.covers q hq
    have hne : d' ≠ d := by
      rintro rfl
      omega
    have := separated_symm inv2.sep hd' hd hne
    omega

theorem cover_mem_shared {S cov1 cov2 : List AddrPos}
    (inv1 : CoverInv S cov1) (conn1 : CoverConn S cov1)
    (inv2 : CoverInv S cov2) (conn2 : CoverConn S cov2)
    {c1 : AddrPos} (hc1 : c1 ∈ cov1) : c1 ∈ cov2 := by
  obtain ⟨c2, hc2, ha, ht⟩ := cover_start_shared inv1 inv2 conn2 hc1
  have h1 := cover_end_le inv1 conn1 inv2 hc1 hc2 ha.symm
  have h2 := cover_end_le inv2 conn2 inv1 hc2 hc1 ha
  have : c2 = c1 := by
    cases c1
    cases c2
    simp only at ha ht h1 h2
    simp only [AddrPos.mk.injEq]
    exact ⟨ha, by omega, ht⟩
  rw [← this]
  exact hc2

/-- The cover of an input is determined by the set of its ranges. -/
theorem cover_unique {S cov1 cov2 : List AddrPos}
    (inv1 : CoverInv S cov1) (conn1 : CoverConn S cov1)
    (inv2 : CoverInv S cov2) (conn2 : CoverConn S cov2) : cov1 = cov2 := by
  haveI : IsAntisymm AddrPos (fun a b => a.Addr < b.Addr) :=
    ⟨fun a b h1 h2 => absurd h1 (by omega)⟩
  have hperm : cov1.Perm cov2 :=
    (List.perm_ext_iff_of_nodup (separated_nodup inv1.sep) (separated_nodup inv2.sep)).2
      (fun c => ⟨fun h => cover_mem_shared inv1 conn1 inv2 conn2 h,
        fun h => cover_mem_shared inv2 conn2 inv1 conn1 h⟩)
  have h1 : cov1.Pairwise (fun a b => a.Addr < b.Addr) := inv1.sep.imp (fun h => by omega)
  have h2 : cov2.Pairwise (fun a b => a.Addr < b.Addr) := inv2.sep.imp (fun h => by omega)
  exact List.eq_of_perm_of_sorted hperm h1 h2

theorem SizeForDWARFVar_noOffset (rd : Readers) (d : Data) (entry : Entry)
    (readMemory : MemoryReader)
    (h : ∀ o, entry.Val Attr.AttrType ≠ some (AnyVal.Offset o)) :
    SizeForDWARFVar rd d entry readMemory =
      ({ contents := [], size := 0, err := some "failed to get type offset" }, []) := by
  unfold SizeForDWARFVar
  split
  · next o hv => exact (h o hv).elim
  · rfl

theorem SizeForDWARFVar_typeError (rd : Readers) (d : Data) (entry : Entry)
    (readMemory : MemoryReader) {o : Nat} {e : String}
    (hv : entry.Val Attr.AttrType = some (AnyVal.Offset o)) (ht : d.Typ o = .error e) :
    SizeForDWARFVar rd d entry readMemory =
      ({ contents := [], size := 0, err := some e }, []) := by
  unfold SizeForDWARFVar
  simp only [hv, ht]

theorem SizeForDWARFVar_struct (rd : Readers) (d : Data) (entry : Entry)
    (readMemory : MemoryReader) {o : Nat} {s : StructType}
    (hv : entry.Val Attr.AttrType = some (AnyVal.Offset o))
    (ht : d.Typ o = .ok (DType.StructType s)) :
    SizeForDWARFVar rd d entry readMemory =
      if s.StructName = "string" then
        if (rd.readString s readMemory).1.2.2 ≠ none ∨
            (rd.readString s readMemory).1.2.1 = 0 then
          ({ contents := [], size := uint64OfInt64 s.ByteSize,
             err := (rd.readString s readMemory).1.2.2 }, (rd.readString s readMemory).2)
        else
          ({ contents := [{ Name := "string", Addr := (rd.readString s readMemory).1.1,
                            Size := (rd.readString s readMemory).1.2.1 }],
             size := uint64OfInt64 s.ByteSize, err := none },
            (rd.readString s readMemory).2)
      else if s.StructName = "[]uint8" then
        if (rd.readSlice s readMemory "*uint8").1.2.2 ≠ none ∨
            (rd.readSlice s readMemory "*uint8").1.2.1 = 0 then
          ({ contents := [], size := uint64OfInt64 s.ByteSize,
             err := (rd.readSlice s readMemory "*uint8").1.2.2 },
            (rd.readSlice s readMemory "*uint8").2)
        else
          ({ contents := [{ Name := "[]uint8",
                            Addr := (rd.readSlice s readMemory "*uint8").1.1,
                            Size := (rd.readSlice s readMemory "*uint8").1.2.1 }],
             size := uint64OfInt64 s.ByteSize, err := none },
            (rd.readSlice s readMemory "*uint8").2)
      else
        ({ contents := [], size := uint64OfInt64 s.ByteSize, err := none }, []) := by
  unfold SizeForDWARFVar
  simp only [hv, ht, DType.Size]

theorem SizeForDWARFVar_typedef_struct (rd : Readers) (d : Data) (entry : Entry)
    (readMemory : MemoryReader) {o : Nat} {s : StructType}
    (hv : entry.Val Attr.AttrType = some (AnyVal.Offset o))
    (ht : d.Typ o = .ok (DType.TypedefType (DType.StructType s))) :
    SizeForDWARFVar rd d entry readMemory =
      if s.StructName = "embed.FS" then
        if (rd.readEmbedFS s readMemory).1.2 ≠ none ∨
            (rd.readEmbedFS s readMemory).1.1.length = 0 then
          ({ contents := [], size := uint64OfInt64 s.ByteSize,
             err := (rd.readEmbedFS s readMemory).1.2 }, (rd.readEmbedFS s readMemory).2)
        else
          ({ contents := (rd.readEmbedFS s readMemory).1.1,
             size := uint64OfInt64 s.ByteSize, err := none },
            (rd.readEmbedFS s readMemory).2)
      else
        ({ contents := [], size := uint64OfInt64 s.ByteSize, err := none }, []) := by
  unfold SizeForDWARFVar
  simp only [hv, ht, DType.Size]

theorem SizeForDWARFVar_plain (rd : Readers) (d : Data) (entry : Entry)
    (readMemory : MemoryReader) {o : Nat} {typ : DType}
    (hv : entry.Val Attr.AttrType = some (AnyVal.Offset o)) (ht : d.Typ o = .ok typ)
    (h1 : ∀ s, typ ≠ DType.StructType s)
    (h2 : ∀ s, typ ≠ DType.TypedefType (DType.StructType s)) :
    SizeForDWARFVar rd d entry readMemory =
      ({ contents := [], size := uint64OfInt64 typ.Size, err := none }, []) := by
  unfold SizeForDWARFVar
  simp only [hv, ht]
  cases typ with
  | StructType s => exact (h1 s rfl).elim
  | other n => rfl
  | TypedefType inner =>
    cases inner with
    | StructType s => exact (h2 s rfl).elim
    | other n => rfl
    | TypedefType t => rfl

theorem uint64OfInt64_of_bounds {x : Int} (h1 : 0 ≤ x) (h2 : x < 2 ^ 64) :
    (uint64OfInt64 x : Int) = x := by
  unfold uint64OfInt64
  rw [Int.emod_eq_of_lt h1 h2]
  exact Int.toNat_of_nonneg h1

theorem SizeForDWARFVar_size (rd : Readers) (d : Data) (entry : Entry)
    (readMemory : MemoryReader) {o : Nat} {typ : DType}
    (hv : entry.Val Attr.AttrType = some (AnyVal.Offset o)) (ht : d.Typ o = .ok typ) :
    (SizeForDWARFVar rd d entry readMemory).1.size = uint64OfInt64 typ.Size := by
  by_cases h1 : ∃ s, typ = DType.StructType s
  · obtain ⟨s, rfl⟩ := h1
    rw [SizeForDWARFVar_struct rd d entry readMemory hv ht]
    simp only [DType.Size]
    split_ifs <;> rfl
  · by_cases h2 : ∃ s, typ = DType.TypedefType (DType.StructType s)
    · obtain ⟨s, rfl⟩ := h2
      rw [SizeForDWARFVar_typedef_struct rd d entry readMemory hv ht]
      simp only [DType.Size]
      split_ifs <;> rfl
    · rw [SizeForDWARFVar_plain rd d entry readMemory hv ht
        (fun s hs => h1 ⟨s, hs⟩) (fun s hs => h2 ⟨s, hs⟩)]

theorem specReadString_reads (L : Layout) (s : StructType) (readMemory : MemoryReader) :
    (specReadString L s readMemory).2 = [{ addr := L.varAddr, size := 2 * L.word }] := by
  unfold specReadString invoke
  cases readMemory L.varAddr (2 * L.word) <;> rfl

theorem specReadSlice_reads (L : Layout) (s : StructType) (readMemory : MemoryReader)
    (elem : String) :
    (specReadSlice L s readMemory elem).2 = [{ addr := L.varAddr, size := 3 * L.word }] := by
  unfold specReadSlice invoke
  cases readMemory L.varAddr (3 * L.word) <;> rfl

theorem specReadEmbedFS_reads (L : Layout) (s : StructType) (readMemory : MemoryReader) :
    (specReadEmbedFS L s readMemory).2 = [{ addr := L.varAddr, size := L.tableSize }] := by
  unfold specReadEmbedFS invoke
  cases readMemory L.varAddr L.tableSize <;> rfl

/-- The reads of a call are those of the one helper it applies. -/
theorem SizeForDWARFVar_reads (rd : Readers) (d : Data) (entry : Entry)
    (readMemory : MemoryReader) :
    (∀ (o : Nat) (s : StructType), entry.Val Attr.AttrType = some (AnyVal.Offset o) →
      d.Typ o = .ok (DType.StructType s) → s.StructName = "string" →
      (SizeForDWARFVar rd d entry readMemory).2 = (rd.readString s readMemory).2) ∧
    (∀ (o : Nat) (s : StructType), entry.Val Attr.AttrType = some (AnyVal.Offset o) →
      d.Typ o = .ok (DType.StructType s) → s.StructName = "[]uint8" →
      (SizeForDWARFVar rd d entry readMemory).2 = (rd.readSlice s readMemory "*uint8").2) ∧
    (∀ (o : Nat) (s : StructType), entry.Val Attr.AttrType = some (AnyVal.Offset o) →
      d.Typ o = .ok (DType.TypedefType (DType.StructType s)) → s.StructName = "embed.FS" →
      (SizeForDWARFVar rd d entry readMemory).2 = (rd.readEmbedFS s readMemory).2) ∧
    ((¬ ∃ (o : Nat) (s : StructType), entry.Val Attr.AttrType = some (AnyVal.Offset o) ∧
        ((d.Typ o = .ok (DType.StructType s) ∧
            (s.StructName = "string" ∨ s.StructName = "[]uint8")) ∨
          (d.Typ o = .ok (DType.TypedefType (DType.StructType s)) ∧
            s.StructName = "embed.FS"))) →
      (SizeForDWARFVar rd d entry readMemory).2 = []) := by
  have hne : ¬ ("[]uint8" : String) = "string" := by decide
  refine ⟨?_, ?_, ?_, ?_⟩
  · intro o s hv ht hn
    rw [SizeForDWARFVar_struct rd d entry readMemory hv ht]
    simp only [hn, if_true]
    split_ifs <;> rfl
  · intro o s hv ht hn
    rw [SizeForDWARFVar_struct rd d entry readMemory hv ht]
    simp only [hn, hne, if_false, if_true]
    split_ifs <;> rfl
  · intro o s hv ht hn
    rw [SizeForDWARFVar_typedef_struct rd d entry readMemory hv ht]
    simp only [hn, if_true]
    split_ifs <;> rfl
  · intro hno
    by_cases hv : ∃ o, entry.Val Attr.AttrType = some (AnyVal.Offset o)
    · obtain ⟨o, hv⟩ := hv
      cases ht : d.Typ o with
      | error e => rw [SizeForDWARFVar_typeError rd d entry readMemory hv ht]
      | ok typ =>
        by_cases h1 : ∃ s, typ = DType.StructType s
        · obtain ⟨s, rfl⟩ := h1
          have hn1 : ¬ s.StructName = "string" := fun h =>
            hno ⟨o, s, hv, Or.inl ⟨ht, Or.inl h⟩⟩
          have hn2 : ¬ s.StructName = "[]uint8" := fun h =>
            hno ⟨o, s, hv, Or.inl ⟨ht, Or.inr h⟩⟩
          rw [SizeForDWARFVar_struct rd d entry readMemory hv ht]
          simp only [hn1, hn2, if_false]
        · by_cases h2 : ∃ s, typ = DType.TypedefType (DType.StructType s)
          · obtain ⟨s, rfl⟩ := h2
            have hn3 : ¬ s.StructName = "embed.FS" := fun h =>
              hno ⟨o, s, hv, Or.inr ⟨ht, h⟩⟩
            rw [SizeForDWARFVar_typedef_struct rd d entry readMemory hv ht]
            simp only [hn3, if_false]
          · rw [SizeForDWARFVar_plain rd d entry readMemory hv ht
              (fun s hs => h1 ⟨s, hs⟩) (fun s hs => h2 ⟨s, hs⟩)]
    · rw [SizeForDWARFVar_noOffset rd d entry readMemory (fun o ho => hv ⟨o, ho⟩)]

/-- C1: when no input range wraps around `2^64` and `GetCoverage` returns, a
byte address lies in some range of the returned coverage exactly when it lies
in some input range (an entry of the space or a range of an extra coverage). -/
theorem GetCoverage_same_bytes (R : Runtime) (hR : R.Valid) (a : AddrSpace)
    (coverages : List AddrCoverage) (cov : AddrCoverage)
    (hw : ∀ r ∈ inputRanges a coverages, r.Addr + r.Size < W)
    (h : a.GetCoverage R coverages = .ok cov) (x : Nat) :
    (∃ c ∈ cov, c.Addr ≤ x ∧ x < c.Addr + c.Size) ↔
      (∃ r ∈ inputRanges a coverages, r.Addr ≤ x ∧ x < r.Addr + r.Size) := by
  have inv := GetCoverage_inv hR hw h
  constructor
  · rintro ⟨c, hc, h1, h2⟩
    exact inv.bytes c hc x h1 h2
  · rintro ⟨r, hr, h1, h2⟩
    obtain ⟨c, hc, -, h3, h4⟩ := inv.covers r hr
    exact ⟨c, hc, by omega, by omega⟩

/-- C1 at `demoSpace` with `demoCoverages` and byte address 15. -/
theorem GetCoverage_same_bytes_witness :
    stdRuntime.Valid ∧
    (∀ r ∈ inputRanges demoSpace demoCoverages, r.Addr + r.Size < W) ∧
    demoSpace.GetCoverage stdRuntime demoCoverages =
      .ok [⟨3, 2, "text"⟩, ⟨6, 3, "text"⟩, ⟨10, 6, "text"⟩, ⟨20, 4, "text"⟩, ⟨40, 0, "data"⟩] ∧
    ((∃ c ∈ ([⟨3, 2, "text"⟩, ⟨6, 3, "text"⟩, ⟨10, 6, "text"⟩, ⟨20, 4, "text"⟩,
        ⟨40, 0, "data"⟩] : List AddrPos), c.Addr ≤ 15 ∧ 15 < c.Addr + c.Size) ↔
      (∃ r ∈ inputRanges demoSpace demoCoverages, r.Addr ≤ 15 ∧ 15 < r.Addr + r.Size)) :=
  ⟨stdRuntime_valid, by decide, by decide,
    GetCoverage_same_bytes stdRuntime stdRuntime_valid demoSpace demoCoverages _
      (by decide) (by decide) 15⟩

/-- C2: when no input range wraps around `2^64` and `GetCoverage` returns, each
range of the result ends strictly before the next one starts (consecutive
ranges, and so any two), addresses are strictly increasing, and no range of the
result wraps. -/
theorem GetCoverage_sorted_merged (R : Runtime) (hR : R.Valid) (a : AddrSpace)
    (coverages : List AddrCoverage) (cov : AddrCoverage)
    (hw : ∀ r ∈ inputRanges a coverages, r.Addr + r.Size < W)
    (h : a.GetCoverage R coverages = .ok cov) :
    cov.Chain' (fun c d => c.Addr + c.Size < d.Addr) ∧
    cov.Pairwise (fun c d => c.Addr + c.Size < d.Addr) ∧
    cov.Pairwise (fun c d => c.Addr < d.Addr) ∧
    (∀ c ∈ cov, c.Addr + c.Size < W) := by
  have inv := GetCoverage_inv hR hw h
  exact ⟨inv.sep.chain', inv.sep, inv.sep.imp (fun h => by omega), inv.bound⟩

/-- C2 at `demoSpace` with `demoCoverages`. -/
theorem GetCoverage_sorted_merged_witness :
    stdRuntime.Valid ∧
    (∀ r ∈ inputRanges demoSpace demoCoverages, r.Addr + r.Size < W) ∧
    demoSpace.GetCoverage stdRuntime demoCoverages =
      .ok [⟨3, 2, "text"⟩, ⟨6, 3, "text"⟩, ⟨10, 6, "text"⟩, ⟨20, 4, "text"⟩, ⟨40, 0, "data"⟩] ∧
    (([⟨3, 2, "text"⟩, ⟨6, 3, "text"⟩, ⟨10, 6, "text"⟩, ⟨20, 4, "text"⟩,
        ⟨40, 0, "data"⟩] : List AddrPos).Chain' (fun c d => c.Addr + c.Size < d.Addr)) :=
  ⟨stdRuntime_valid, by decide, by decide,
    (GetCoverage_sorted_merged stdRuntime stdRuntime_valid demoSpace demoCoverages _
      (by decide) (by decide)).1⟩

/-- C3: when no input range wraps around `2^64`, `GetCoverage` panics exactly
when two input ranges of different `Type` overlap or touch
(`r1.Addr <= r2.Addr <= r1.Addr + r1.Size`); so a text range ending where a
data range starts makes it panic, and an input without such a pair returns. -/
theorem GetCoverage_panics_iff (R : Runtime) (hR : R.Valid) (a : AddrSpace)
    (coverages : List AddrCoverage)
    (hw : ∀ r ∈ inputRanges a coverages, r.Addr + r.Size < W) :
    ((∃ e, a.GetCoverage R coverages = .error e) ↔
      ∃ r1 ∈ inputRanges a coverages, ∃ r2 ∈ inputRanges a coverages,
        r1.Typ ≠ r2.Typ ∧ r1.Addr ≤ r2.Addr ∧ r2.Addr ≤ r1.Addr + r1.Size) ∧
    (∀ r1 ∈ inputRanges a coverages, ∀ r2 ∈ inputRanges a coverages,
      r1.Typ = AddrTypeText → r2.Typ = AddrTypeData → r1.Addr + r1.Size = r2.Addr →
        ∃ e, a.GetCoverage R coverages = .error e) ∧
    ((¬ ∃ r1 ∈ inputRanges a coverages, ∃ r2 ∈ inputRanges a coverages,
        r1.Typ ≠ r2.Typ ∧ r1.Addr ≤ r2.Addr ∧ r2.Addr ≤ r1.Addr + r1.Size) →
      ∃ cov, a.GetCoverage R coverages = .ok cov) := by
  have hback : ∀ r1 ∈ inputRanges a coverages, ∀ r2 ∈ inputRanges a coverages,
      r1.Typ ≠ r2.Typ → r1.Addr ≤ r2.Addr → r2.Addr ≤ r1.Addr + r1.Size →
        ∃ e, a.GetCoverage R coverages = .error e := by
    intro r1 h1 r2 h2 ht ha hb
    cases hres : a.GetCoverage R coverages with
    | error e => exact ⟨e, rfl⟩
    | ok cov => exact ((GetCoverage_inv hR hw hres).no_conflict h1 h2 ht ha hb).elim
  have hfwd : (∃ e, a.GetCoverage R coverages = .error e) →
      ∃ r1 ∈ inputRanges a coverages, ∃ r2 ∈ inputRanges a coverages,
        r1.Typ ≠ r2.Typ ∧ r1.Addr ≤ r2.Addr ∧ r2.Addr ≤ r1.Addr + r1.Size := by
    rintro ⟨e, he⟩
    obtain ⟨r1, h1, r2, h2, h3⟩ :=
      coverLoop_error (sortedRanges R a coverages) [] [] e CoverInv.nil (by simp)
        (sortedRanges_sorted hR a coverages)
        (fun r hr => hw r ((mem_sortedRanges hR a coverages r).1 hr)) he
    rw [List.append_nil] at h1 h2
    exact ⟨r1, (mem_sortedRanges hR a coverages r1).1 h1, r2,
      (mem_sortedRanges hR a coverages r2).1 h2, h3⟩
  refine ⟨⟨hfwd, ?_⟩, ?_, ?_⟩
  · rintro ⟨r1, h1, r2, h2, ht, ha, hb⟩
    exact hback r1 h1 r2 h2 ht ha hb
  · intro r1 h1 r2 h2 t1 t2 he
    exact hback r1 h1 r2 h2 (by rw [t1, t2]; decide) (by omega) (by omega)
  · intro hno
    cases hres : a.GetCoverage R coverages with
    | error e => exact (hno (hfwd ⟨e, hres⟩)).elim
    | ok cov => exact ⟨cov, rfl⟩

/-- C3 at a text range `[16, 32)` touching a data range that starts at 32. -/
theorem GetCoverage_panics_iff_witness :
    stdRuntime.Valid ∧
    (∀ r ∈ inputRanges touchingSpace [], r.Addr + r.Size < W) ∧
    ((∃ e, touchingSpace.GetCoverage stdRuntime [] = .error e) ↔
      ∃ r1 ∈ inputRanges touchingSpace [], ∃ r2 ∈ inputRanges touchingSpace [],
        r1.Typ ≠ r2.Typ ∧ r1.Addr ≤ r2.Addr ∧ r2.Addr ≤ r1.Addr + r1.Size) ∧
    touchingSpace.GetCoverage stdRuntime [] = .error (Panic.typeConflict 32 "text" "data") :=
  ⟨stdRuntime_valid, by decide,
    (GetCoverage_panics_iff stdRuntime stdRuntime_valid touchingSpace [] (by decide)).1,
    by decide⟩

theorem BuildSymbolCoverage_ok {R : Runtime} {f f' : KnownAddr}
    (h : f.BuildSymbolCoverage R = .ok f') :
    f.symbol.GetCoverage R [] = .ok f'.symbolCoverage ∧
      f'.symbol = f.symbol ∧ f'.pclntab = f.pclntab := by
  unfold KnownAddr.BuildSymbolCoverage at h
  cases hc : f.symbol.GetCoverage R [] with
  | error e => rw [hc] at h; cases h
  | ok cov =>
    rw [hc] at h
    injection h with h
    subst h
    exact ⟨rfl, rfl, rfl⟩

theorem inputRanges_symbol {a : AddrSpace}
    (hw : ∀ p ∈ a, p.2.pos.Addr + p.2.pos.Size < W) :
    ∀ r ∈ inputRanges a [], r.Addr + r.Size < W := by
  intro r hr
  simp only [inputRanges, List.flatten_nil, List.append_nil, List.mem_map] at hr
  obtain ⟨p, hp, rfl⟩ := hr
  exact hw p hp

/-- C4, the claim at a zero size and at a zero-size coverage range. With the
coverage built from one symbol `[0x2000, 0x2010)`, `SymbolCovHas(0x2004, 0)` is
true although the span `[0x2004, 0x2004)` holds no byte; with the coverage built
from a zero-size symbol at `0x3000`, `SymbolCovHas(0x2ff0, 0x20)` is true
although that range holds no byte. -/
theorem SymbolCovHas_zero_size_counterexample :
    (covKnown.BuildSymbolCoverage stdRuntime =
        .ok { covKnown with symbolCoverage := [⟨0x2000, 0x10, "data"⟩] } ∧
      KnownAddr.SymbolCovHas { covKnown with symbolCoverage := [⟨0x2000, 0x10, "data"⟩] }
        0x2004 0 = true ∧
      ¬ ∃ c ∈ ([⟨0x2000, 0x10, "data"⟩] : List AddrPos), ∃ x : Nat,
          c.Addr ≤ x ∧ x < c.Addr + c.Size ∧ 0x2004 ≤ x ∧ x < 0x2004 + 0) ∧
    (zeroKnown.BuildSymbolCoverage stdRuntime =
        .ok { zeroKnown with symbolCoverage := [⟨0x3000, 0, "data"⟩] } ∧
      KnownAddr.SymbolCovHas { zeroKnown with symbolCoverage := [⟨0x3000, 0, "data"⟩] }
        0x2ff0 0x20 = true ∧
      ¬ ∃ c ∈ ([⟨0x3000, 0, "data"⟩] : List AddrPos), ∃ x : Nat,
          c.Addr ≤ x ∧ x < c.Addr + c.Size ∧ 0x2ff0 ≤ x ∧ x < 0x2ff0 + 0x20) := by
  refine ⟨⟨by decide, by decide, ?_⟩, by decide, by decide, ?_⟩
  · rintro ⟨c, -, x, h⟩
    omega
  · rintro ⟨c, hc, x, h⟩
    simp only [List.mem_singleton] at hc
    subst hc
    simp only at h
    omega

/-- C4, amended: after `BuildSymbolCoverage` on a symbol space whose ranges do
not wrap, and for `addr + size < 2^64`, `SymbolCovHas(addr, size)` is true
exactly when some coverage range `c` has `c.Addr < addr + size` and
`addr < c.Addr + c.Size`; when `size > 0` and no coverage range has size zero
this is the same as a range sharing a byte with `[addr, addr + size)`. -/
theorem SymbolCovHas_after_build (R : Runtime) (hR : R.Valid) (f f' : KnownAddr)
    (hwrap : ∀ p ∈ f.symbol, p.2.pos.Addr + p.2.pos.Size < W)
    (hbuild : f.BuildSymbolCoverage R = .ok f') (addr size : Nat)
    (hw : addr + size < W) :
    (f'.SymbolCovHas addr size = true ↔
      ∃ c ∈ f'.symbolCoverage, c.Addr < addr + size ∧ addr < c.Addr + c.Size) ∧
    (0 < size → (∀ c ∈ f'.symbolCoverage, 0 < c.Size) →
      (f'.SymbolCovHas addr size = true ↔
        ∃ c ∈ f'.symbolCoverage, ∃ x : Nat,
          c.Addr ≤ x ∧ x < c.Addr + c.Size ∧ addr ≤ x ∧ x < addr + size)) := by
  have inv := GetCoverage_inv hR (inputRanges_symbol hwrap) (BuildSymbolCoverage_ok hbuild).1
  have key := covSearch_iff f'.symbolCoverage inv.sep inv.bound addr size hw
  refine ⟨key, fun hs hpos => ?_⟩
  unfold KnownAddr.SymbolCovHas
  rw [key]
  constructor
  · rintro ⟨c, hc, h1, h2⟩
    have := hpos c hc
    exact ⟨c, hc, max c.Addr addr, by omega, by omega, by omega, by omega⟩
  · rintro ⟨c, hc, x, h1, h2, h3, h4⟩
    exact ⟨c, hc, by omega, by omega⟩

/-- C4, amended, at the coverage `[0x2000, 0x2010)` and the span `[0x2004, 0x2008)`. -/
theorem SymbolCovHas_after_build_witness :
    stdRuntime.Valid ∧
    (∀ p ∈ covKnown.symbol, p.2.pos.Addr + p.2.pos.Size < W) ∧
    covKnown.BuildSymbolCoverage stdRuntime =
      .ok { covKnown with symbolCoverage := [⟨0x2000, 0x10, "data"⟩] } ∧
    0x2004 + 4 < W ∧
    (KnownAddr.SymbolCovHas { covKnown with symbolCoverage := [⟨0x2000, 0x10, "data"⟩] }
        0x2004 4 = true ↔
      ∃ c ∈ ([⟨0x2000, 0x10, "data"⟩] : List AddrPos),
        c.Addr < 0x2004 + 4 ∧ 0x2004 < c.Addr + c.Size) :=
  ⟨stdRuntime_valid, by decide, by decide, by decide,
    (SymbolCovHas_after_build stdRuntime stdRuntime_valid covKnown _ (by decide)
      (by decide) 0x2004 4 (by decide)).1⟩

/-- C5: after `Insert`ing the entries of `l`, in order, into an empty space,
an address is absent exactly when no entry of `l` has it, and the entry `e`
stored at an address is an entry of `l` at that address such that every entry
inserted before it there is strictly smaller and every entry inserted after it
there is no larger: the earliest of maximal `Size`. So two entries of different
`Size` at one address give the same space in either order. -/
theorem Insert_largest_wins (l : List Addr) (addr : Nat) :
    ((insertAll l).Get addr = none ↔ ∀ e ∈ l, e.pos.Addr ≠ addr) ∧
    (∀ e : Addr, (insertAll l).Get addr = some e →
      e.pos.Addr = addr ∧ ∃ pre post : List Addr, l = pre ++ e :: post ∧
        (∀ y ∈ pre, y.pos.Addr = addr → y.pos.Size < e.pos.Size) ∧
        (∀ y ∈ post, y.pos.Addr = addr → y.pos.Size ≤ e.pos.Size)) ∧
    (∀ e1 e2 : Addr, e1.pos.Addr = e2.pos.Addr → e1.pos.Size ≠ e2.pos.Size →
      insertAll [e1, e2] = insertAll [e2, e1]) := by
  refine ⟨?_, ?_, ?_⟩
  · exact Get_insertAll_none_iff l addr
  · induction l using List.reverseRecOn with
    | nil =>
      intro e h
      simp [insertAll, Get_nil] at h
    | append_singleton l x ih =>
      intro e h
      rw [insertAll_concat, Get_Insert] at h
      by_cases hk : addr = x.pos.Addr
      · simp only [hk, if_true] at h
        subst hk
        cases hg : AddrSpace.Get (insertAll l) x.pos.Addr with
        | none =>
          rw [hg] at h
          simp only [Option.some.injEq] at h
          subst h
          have hno := (Get_insertAll_none_iff l x.pos.Addr).1 hg
          exact ⟨rfl, l, [], rfl, fun y hy hy' => (hno y hy hy').elim, by simp⟩
        | some old =>
          rw [hg] at h
          obtain ⟨ho, pre, post, hl, hpre, hpost⟩ := ih old hg
          simp only at h
          split_ifs at h with hs
          · simp only [Option.some.injEq] at h
            subst h
            refine ⟨rfl, l, [], rfl, ?_, by simp⟩
            intro y hy hya
            rw [hl] at hy
            rcases List.mem_append.1 hy with hy | hy
            · have := hpre y hy hya
              omega
            · rcases List.mem_cons.1 hy with rfl | hy
              · exact hs
              · have := hpost y hy hya
                omega
          · simp only [Option.some.injEq] at h
            subst h
            refine ⟨ho, pre, post ++ [x], by simp [hl], hpre, ?_⟩
            intro y hy hya
            rcases List.mem_append.1 hy with hy | hy
            · exact hpost y hy hya
            · simp only [List.mem_singleton] at hy
              subst hy
              omega
      · simp only [hk, if_false] at h
        obtain ⟨ho, pre, post, hl, hpre, hpost⟩ := ih e h
        refine ⟨ho, pre, post ++ [x], by simp [hl], hpre, ?_⟩
        intro y hy hya
        rcases List.mem_append.1 hy with hy | hy
        · exact hpost y hy hya
        · simp only [List.mem_singleton] at hy
          subst hy
          exact (hk hya.symm).elim
  · intro e1 e2 ha hs
    have h12 : insertAll [e1, e2] =
        if e1.pos.Size < e2.pos.Size then [(e2.pos.Addr, e2)] else [(e1.pos.Addr, e1)] := by
      simp [insertAll, AddrSpace.Insert, Get_nil, Get_cons, AddrSpace.set, ha]
    have h21 : insertAll [e2, e1] =
        if e2.pos.Size < e1.pos.Size then [(e1.pos.Addr, e1)] else [(e2.pos.Addr, e2)] := by
      simp [insertAll, AddrSpace.Insert, Get_nil, Get_cons, AddrSpace.set, ha]
    rw [h12, h21]
    split_ifs <;> first | rfl | omega

/-- C6: `InsertSymbol(addr, size, p, typ, meta)` returns the `KnownAddr`
untouched when `typ` is text and the pclntab space has an entry at `addr`,
whatever the sizes; in every other case the symbol space becomes the `Insert`
of the new entry. The pclntab space is the same after the call in both cases.
With a pclntab entry at `0x1000` of size 16, a text symbol at `0x1000` of size
16 leaves the symbol space empty and the pclntab entry in place. -/
theorem InsertSymbol_precedence (f : KnownAddr) (addr size : Nat) (p : Option Nat)
    (typ : AddrType) (meta : Nat) :
    (f.InsertSymbol addr size p typ meta =
      if typ = AddrTypeText ∧ (f.pclntab.Get addr).isSome then f
      else { f with
        symbol := f.symbol.Insert (Addr.mk { Addr := addr, Size := size, Typ := typ } p none
          AddrSourceType.AddrSourceSymbol (Meta.symbol meta)) }) ∧
    (f.InsertSymbol addr size p typ meta).pclntab = f.pclntab ∧
    (((NewKnownAddr 0).InsertPclntab emptyHeap 0x1000 16 7 0).InsertSymbol
        0x1000 16 none AddrTypeText 0).symbol = [] ∧
    (((NewKnownAddr 0).InsertPclntab emptyHeap 0x1000 16 7 0).InsertSymbol
        0x1000 16 none AddrTypeText 0).pclntab =
      [(0x1000,
        { pos := { Addr := 0x1000, Size := 16, Typ := AddrTypeText }
          Pkg := none
          Function := some 7
          SourceType := AddrSourceType.AddrSourceGoPclntab
          Meta := Meta.pclntab 0 })] := by
  refine ⟨?_, ?_, by decide, by decide⟩
  · unfold KnownAddr.InsertSymbol
    by_cases ht : typ = AddrTypeText
    · cases hg : AddrSpace.Get f.pclntab addr <;> simp [ht]
    · simp [ht]
  · unfold KnownAddr.InsertSymbol
    by_cases ht : typ = AddrTypeText
    · cases hg : AddrSpace.Get f.pclntab addr <;> simp [ht]
    · simp [ht]

/-- C7: when the symbol space has an entry `sv` at `addr`,
`InsertDisasm(addr, size, fn)` panics exactly when `sv.Type` is not data; when
it is data the call returns with the `KnownAddr` and every function, `fn`
and its `Disasm` included, as they were. -/
theorem InsertDisasm_symbol_collision (f : KnownAddr) (heap : Nat → Function)
    (addr size fn : Nat) (sv : Addr) (h : f.symbol.Get addr = some sv) :
    ((∃ e, f.InsertDisasm heap addr size fn = .error e) ↔ sv.pos.Typ ≠ AddrTypeData) ∧
    (sv.pos.Typ ≠ AddrTypeData →
      f.InsertDisasm heap addr size fn = .error (Panic.symbolNotData addr)) ∧
    (sv.pos.Typ = AddrTypeData → f.InsertDisasm heap addr size fn = .ok (f, heap)) := by
  unfold KnownAddr.InsertDisasm
  rw [h]
  by_cases ht : sv.pos.Typ = AddrTypeData
  · simp [ht]
  · simp [ht]

/-- C7 at a data symbol `[0x2000, 0x2010)` and an insertion at `0x2000`. -/
theorem InsertDisasm_symbol_collision_witness :
    covKnown.symbol.Get 0x2000 = some (symAddr 0x2000 0x10 "data") ∧
    ((∃ e, covKnown.InsertDisasm emptyHeap 0x2000 8 0 = .error e) ↔
      (symAddr 0x2000 0x10 "data").pos.Typ ≠ AddrTypeData) ∧
    ((symAddr 0x2000 0x10 "data").pos.Typ = AddrTypeData →
      covKnown.InsertDisasm emptyHeap 0x2000 8 0 = .ok (covKnown, emptyHeap)) :=
  ⟨by decide,
    (InsertDisasm_symbol_collision covKnown emptyHeap 0x2000 8 0 _ (by decide)).1,
    (InsertDisasm_symbol_collision covKnown emptyHeap 0x2000 8 0 _ (by decide)).2.2⟩

/-- C9: a call `InsertDisasm(addr, size, fn)` that returns leaves the pclntab
space, the symbol space and the cached symbol coverage as they were and
touches no function other than `fn`; and when the symbol space has no entry at
`addr` and `SymbolCovHas(addr, size)` is false the call does return, with
`fn.Disasm` the `Insert` of the entry of that `addr` and `size`, `Type` data,
`Pkg` `fn.Pkg`, `Function` `fn` and disassembly provenance. -/
theorem InsertDisasm_frame (f : KnownAddr) (heap : Nat → Function)
    (addr size fn : Nat) :
    (∀ (f' : KnownAddr) (heap' : Nat → Function),
      f.InsertDisasm heap addr size fn = .ok (f', heap') →
        f'.pclntab = f.pclntab ∧ f'.symbol = f.symbol ∧
        f'.symbolCoverage = f.symbolCoverage ∧ ∀ g, g ≠ fn → heap' g = heap g) ∧
    (f.symbol.Get addr = none → f.SymbolCovHas addr size = false →
      ∃ heap' : Nat → Function,
        f.InsertDisasm heap addr size fn = .ok (f, heap') ∧
        (heap' fn).Disasm = (heap fn).Disasm.Insert
          { pos := { Addr := addr, Size := size, Typ := AddrTypeData }
            Pkg := (heap fn).Pkg
            Function := some fn
            SourceType := AddrSourceType.AddrSourceDisasm
            Meta := Meta.nil } ∧
        (heap' fn).Pkg = (heap fn).Pkg ∧
        ∀ g, g ≠ fn → (heap' g).Disasm = (heap g).Disasm) := by
  constructor
  · intro f' heap' h
    unfold KnownAddr.InsertDisasm at h
    cases hg : AddrSpace.Get f.symbol addr with
    | some sv =>
      rw [hg] at h
      simp only at h
      split_ifs at h
      injection h with h
      injection h with h1 h2
      subst h1 h2
      exact ⟨rfl, rfl, rfl, fun _ _ => rfl⟩
    | none =>
      rw [hg] at h
      simp only at h
      split_ifs at h
      · injection h with h
        injection h with h1 h2
        subst h1 h2
        exact ⟨rfl, rfl, rfl, fun _ _ => rfl⟩
      · injection h with h
        injection h with h1 h2
        subst h1 h2
        exact ⟨rfl, rfl, rfl, fun g hg' => by simp [hg']⟩
  · intro hg hc
    unfold KnownAddr.InsertDisasm
    rw [hg]
    simp only [hc, Bool.false_eq_true, if_false]
    exact ⟨_, rfl, by simp, by simp, fun g hg' => by simp [hg']⟩

/-- C8, the claim at a size that wraps. The coverage `[0x2000, 0x2010)` is
built from the symbol space and holds `0x2004`, where no symbol sits; with
`size = 2^64 - 0x2004` the sum `addr + size` wraps to 0, `SymbolCovHas` is
false, and `InsertDisasm` adds the entry to the function's `Disasm`. -/
theorem InsertDisasm_wrap_counterexample :
    covKnown.BuildSymbolCoverage stdRuntime = .ok builtKnown ∧
    (∀ p ∈ builtKnown.symbol, p.2.pos.Addr + p.2.pos.Size < W) ∧
    (∃ c ∈ builtKnown.symbolCoverage, c.Addr ≤ 0x2004 ∧ 0x2004 < c.Addr + c.Size) ∧
    0xFFFFFFFFFFFFDFFC < W ∧
    (emptyHeap 0).Disasm = [] ∧
    ∃ heap' : Nat → Function,
      builtKnown.InsertDisasm emptyHeap 0x2004 0xFFFFFFFFFFFFDFFC 0 = .ok (builtKnown, heap') ∧
      (heap' 0).Disasm =
        [(0x2004,
          { pos := { Addr := 0x2004, Size := 0xFFFFFFFFFFFFDFFC, Typ := AddrTypeData }
            Pkg := none
            Function := some 0
            SourceType := AddrSourceType.AddrSourceDisasm
            Meta := Meta.nil })] :=
  ⟨by decide, by decide, by decide, by decide, rfl, _, rfl, by decide⟩

/-- C8, amended: when the symbol coverage is the one `GetCoverage` builds from
the current symbol space (ranges not wrapping, entries keyed by their
address), `addr` lies inside a coverage range and `addr + size < 2^64`, the
call `InsertDisasm(addr, size, fn)` panics or returns with every function's
`Disasm` as it was; with no symbol at exactly `addr` it returns so. -/
theorem InsertDisasm_absorbed (R : Runtime) (hR : R.Valid) (f : KnownAddr)
    (heap : Nat → Function) (addr size fn : Nat) (c : AddrPos)
    (hkeys : KeysMatch f.symbol)
    (hwrap : ∀ p ∈ f.symbol, p.2.pos.Addr + p.2.pos.Size < W)
    (hbuilt : f.symbol.GetCoverage R [] = .ok f.symbolCoverage)
    (hc : c ∈ f.symbolCoverage) (h1 : c.Addr ≤ addr) (h2 : addr < c.Addr + c.Size)
    (hs : addr + size < W) :
    ((∃ e, f.InsertDisasm heap addr size fn = .error e) ∨
      f.InsertDisasm heap addr size fn = .ok (f, heap)) ∧
    (f.symbol.Get addr = none → f.InsertDisasm heap addr size fn = .ok (f, heap)) := by
  have inv := GetCoverage_inv hR (inputRanges_symbol hwrap) hbuilt
  have hnone : f.symbol.Get addr = none →
      f.InsertDisasm heap addr size fn = .ok (f, heap) := by
    intro hg
    have hne : c.Addr ≠ addr := by
      intro he
      obtain ⟨r, hr, -, hra⟩ := inv.start c hc
      simp only [inputRanges, List.flatten_nil, List.append_nil, List.mem_map] at hr
      obtain ⟨p, hp, rfl⟩ := hr
      exact (Get_none_iff f.symbol addr).1 hg p hp (by rw [hkeys p hp, hra, he])
    have hcov : f.SymbolCovHas addr size = true :=
      (covSearch_iff f.symbolCoverage inv.sep inv.bound addr size hs).2
        ⟨c, hc, by omega, h2⟩
    unfold KnownAddr.InsertDisasm
    rw [hg]
    simp [hcov]
  refine ⟨?_, hnone⟩
  cases hg : AddrSpace.Get f.symbol addr with
  | none => exact Or.inr (hnone hg)
  | some sv =>
    unfold KnownAddr.InsertDisasm
    rw [hg]
    by_cases ht : sv.pos.Typ = AddrTypeData
    · exact Or.inr (by simp [ht])
    · exact Or.inl ⟨Panic.symbolNotData addr, by simp [ht]⟩

/-- C8, amended, at the coverage `[0x2000, 0x2010)` with an insertion at
`0x2004` of size 4. -/
theorem InsertDisasm_absorbed_witness :
    stdRuntime.Valid ∧ KeysMatch builtKnown.symbol ∧
    (∀ p ∈ builtKnown.symbol, p.2.pos.Addr + p.2.pos.Size < W) ∧
    builtKnown.symbol.GetCoverage stdRuntime [] = .ok builtKnown.symbolCoverage ∧
    (⟨0x2000, 0x10, "data"⟩ : AddrPos) ∈ builtKnown.symbolCoverage ∧
    builtKnown.symbol.Get 0x2004 = none ∧
    builtKnown.InsertDisasm emptyHeap 0x2004 4 0 = .ok (builtKnown, emptyHeap) :=
  ⟨stdRuntime_valid, by decide, by decide, by decide, by decide, by decide,
    (InsertDisasm_absorbed stdRuntime stdRuntime_valid builtKnown emptyHeap 0x2004 4 0
      ⟨0x2000, 0x10, "data"⟩ (by decide) (by decide) (by decide) (by decide) (by decide)
      (by decide) (by decide)).2 (by decide)⟩

theorem InsertSymbol_pclntab (f : KnownAddr) (addr size : Nat) (p : Option Nat)
    (typ : AddrType) (meta : Nat) :
    (f.InsertSymbol addr size p typ meta).pclntab = f.pclntab := by
  unfold KnownAddr.InsertSymbol
  by_cases ht : typ = AddrTypeText
  · cases hg : AddrSpace.Get f.pclntab addr <;> simp [ht]
  · simp [ht]

theorem runSymbol_pclntab (cs : List SymbolCall) :
    ∀ f : KnownAddr, (runSymbol f cs).pclntab = f.pclntab := by
  induction cs with
  | nil => intro f; rfl
  | cons c cs ih =>
    intro f
    simp only [runSymbol, List.foldl_cons] at ih ⊢
    rw [ih, InsertSymbol_pclntab]

theorem runPclntab_symbol (heap : Nat → Function) (cs : List PclntabCall) :
    ∀ f : KnownAddr, (runPclntab f heap cs).symbol = f.symbol := by
  induction cs with
  | nil => intro f; rfl
  | cons c cs ih =>
    intro f
    simp only [runPclntab, List.foldl_cons] at ih ⊢
    rw [ih]
    rfl

theorem runPclntab_keys (heap : Nat → Function) (cs : List PclntabCall) :
    ∀ f : KnownAddr, KeysMatch f.pclntab → KeysMatch (runPclntab f heap cs).pclntab := by
  induction cs with
  | nil => intro f h; exact h
  | cons c cs ih =>
    intro f h
    simp only [runPclntab, List.foldl_cons] at ih ⊢
    exact ih _ (KeysMatch.Insert h _)

theorem InsertSymbol_textOff (f : KnownAddr) (addr size : Nat) (p : Option Nat)
    (typ : AddrType) (meta : Nat) (h : TextOffPclntab f) :
    TextOffPclntab (f.InsertSymbol addr size p typ meta) := by
  intro s hs ht
  rw [InsertSymbol_pclntab]
  have hins : ∀ (hno : ¬ (typ = AddrTypeText ∧ (f.pclntab.Get addr).isSome)),
      s ∈ f.symbol.Insert (Addr.mk { Addr := addr, Size := size, Typ := typ } p none
        AddrSourceType.AddrSourceSymbol (Meta.symbol meta)) →
      f.pclntab.Get s.2.pos.Addr = none := by
    intro hno hmem
    rcases mem_Insert hmem with rfl | hmem
    · simp only at ht ⊢
      cases hg : AddrSpace.Get f.pclntab addr with
      | none => rfl
      | some v => exact (hno ⟨ht, by simp [hg]⟩).elim
    · exact h s hmem ht
  unfold KnownAddr.InsertSymbol at hs
  by_cases hty : typ = AddrTypeText
  · cases hg : AddrSpace.Get f.pclntab addr with
    | none =>
      simp only [hty, if_true, hg] at hs
      exact hins (by simp [hg]) (by simpa [hty] using hs)
    | some v =>
      simp only [hty, if_true, hg] at hs
      exact h s hs ht
  · simp only [hty, if_false] at hs
    exact hins (by simp [hty]) hs

theorem runSymbol_textOff (cs : List SymbolCall) :
    ∀ f : KnownAddr, TextOffPclntab f → TextOffPclntab (runSymbol f cs) := by
  induction cs with
  | nil => intro f h; exact h
  | cons c cs ih =>
    intro f h
    simp only [runSymbol, List.foldl_cons] at ih ⊢
    exact ih _ (InsertSymbol_textOff f c.addr c.size c.p c.typ c.meta h)

/-- C10, the claim on an overlap at different addresses. After the pclntab
call `(0x1000, 16)` and then the text symbol call `(0x1004, 4)`, the symbol
space stores the text symbol, and byte `0x1004` lies in it and in the pclntab
entry. -/
theorem ingest_overlap_counterexample :
    ∃ s ∈ (ingest 0 emptyHeap demoPclntabCalls demoSymbolCalls).symbol,
      ∃ p ∈ (ingest 0 emptyHeap demoPclntabCalls demoSymbolCalls).pclntab,
        s.2.pos.Typ = AddrTypeText ∧
        s.2.pos.Addr ≤ 0x1004 ∧ 0x1004 < s.2.pos.Addr + s.2.pos.Size ∧
        p.2.pos.Addr ≤ 0x1004 ∧ 0x1004 < p.2.pos.Addr + p.2.pos.Size := by
  decide

/-- C10, amended: in every state reached by a fresh `KnownAddr`, then all the
`InsertPclntab` calls, then all the `InsertSymbol` calls, no text entry stored
in the symbol space starts at the address of a pclntab entry: the pclntab
space has no entry at its address, and every pclntab entry has another
address. -/
theorem ingest_text_off_pclntab (k : Nat) (heap : Nat → Function)
    (pcs : List PclntabCall) (scs : List SymbolCall) :
    ∀ s ∈ (ingest k heap pcs scs).symbol, s.2.pos.Typ = AddrTypeText →
      (ingest k heap pcs scs).pclntab.Get s.2.pos.Addr = none ∧
      ∀ p ∈ (ingest k heap pcs scs).pclntab, p.2.pos.Addr ≠ s.2.pos.Addr := by
  intro s hs ht
  have h0 : TextOffPclntab (runPclntab (NewKnownAddr k) heap pcs) := by
    intro s hs
    rw [runPclntab_symbol] at hs
    simp [NewKnownAddr] at hs
  have hget := runSymbol_textOff scs _ h0 s hs ht
  refine ⟨hget, fun p hp => ?_⟩
  have hkeys : KeysMatch (ingest k heap pcs scs).pclntab := by
    unfold ingest
    rw [runSymbol_pclntab]
    exact runPclntab_keys heap pcs _ (by simp [NewKnownAddr])
  have := (Get_none_iff _ _).1 hget p hp
  rwa [hkeys p hp] at this

/-- C10, amended, at the pclntab call `(0x1000, 16)` followed by the text symbol
call `(0x1004, 4)`. -/
theorem ingest_text_off_pclntab_witness :
    (0x1004, Addr.mk { Addr := 0x1004, Size := 4, Typ := AddrTypeText } none none
        AddrSourceType.AddrSourceSymbol (Meta.symbol 0)) ∈
      (ingest 0 emptyHeap demoPclntabCalls demoSymbolCalls).symbol ∧
    (ingest 0 emptyHeap demoPclntabCalls demoSymbolCalls).pclntab.Get 0x1004 = none :=
  ⟨by decide,
    (ingest_text_off_pclntab 0 emptyHeap demoPclntabCalls demoSymbolCalls
      (0x1004, Addr.mk { Addr := 0x1004, Size := 4, Typ := AddrTypeText } none none
        AddrSourceType.AddrSourceSymbol (Meta.symbol 0)) (by decide) (by decide)).1⟩

/-- C11: when no input range wraps around `2^64` and `GetCoverage` returns
`cov`, feeding `cov` back returns `cov` again without a panic, both as the one
extra coverage of an empty address space and as an address space whose entries
are exactly the ranges of `cov`, under any valid runtime. -/
theorem GetCoverage_idempotent (R R' : Runtime) (hR : R.Valid) (hR' : R'.Valid)
    (a : AddrSpace) (coverages : List AddrCoverage) (cov : AddrCoverage)
    (hw : ∀ r ∈ inputRanges a coverages, r.Addr + r.Size < W)
    (h : a.GetCoverage R coverages = .ok cov) :
    AddrSpace.GetCoverage R' [] [cov] = .ok cov ∧
    ∀ a' : AddrSpace, (a'.map (fun p => p.2.pos)).Perm cov →
      a'.GetCoverage R' [] = .ok cov := by
  have inv := GetCoverage_inv hR hw h
  constructor
  · exact GetCoverage_of_separated hR' inv.sep inv.bound (by simp [inputRanges])
  · intro a' hp
    exact GetCoverage_of_separated hR' inv.sep inv.bound (by simpa [inputRanges] using hp)

/-- C11 at `demoSpace` with `demoCoverages`. -/
theorem GetCoverage_idempotent_witness :
    stdRuntime.Valid ∧
    (∀ r ∈ inputRanges demoSpace demoCoverages, r.Addr + r.Size < W) ∧
    demoSpace.GetCoverage stdRuntime demoCoverages =
      .ok [⟨3, 2, "text"⟩, ⟨6, 3, "text"⟩, ⟨10, 6, "text"⟩, ⟨20, 4, "text"⟩, ⟨40, 0, "data"⟩] ∧
    AddrSpace.GetCoverage stdRuntime []
        [[⟨3, 2, "text"⟩, ⟨6, 3, "text"⟩, ⟨10, 6, "text"⟩, ⟨20, 4, "text"⟩, ⟨40, 0, "data"⟩]] =
      .ok [⟨3, 2, "text"⟩, ⟨6, 3, "text"⟩, ⟨10, 6, "text"⟩, ⟨20, 4, "text"⟩, ⟨40, 0, "data"⟩] :=
  ⟨stdRuntime_valid, by decide, by decide,
    (GetCoverage_idempotent stdRuntime stdRuntime stdRuntime_valid stdRuntime_valid
      demoSpace demoCoverages _ (by decide) (by decide)).1⟩

/-- C12: when no input range wraps around `2^64` and `GetCoverage` returns, each
input range, of any size, lies entirely inside exactly one range of the result. -/
theorem GetCoverage_total (R : Runtime) (hR : R.Valid) (a : AddrSpace)
    (coverages : List AddrCoverage) (cov : AddrCoverage)
    (hw : ∀ r ∈ inputRanges a coverages, r.Addr + r.Size < W)
    (h : a.GetCoverage R coverages = .ok cov) (r : AddrPos)
    (hr : r ∈ inputRanges a coverages) :
    ∃! c, c ∈ cov ∧ c.Addr ≤ r.Addr ∧ r.Addr + r.Size ≤ c.Addr + c.Size := by
  have inv := GetCoverage_inv hR hw h
  obtain ⟨c, hc, -, h1, h2⟩ := inv.covers r hr
  refine ⟨c, ⟨hc, h1, h2⟩, ?_⟩
  rintro d ⟨hd, h3, h4⟩
  by_contra hne
  have hsym : cov.Pairwise
      (fun c d => c.Addr + c.Size < d.Addr ∨ d.Addr + d.Size < c.Addr) :=
    inv.sep.imp (fun h => Or.inl h)
  have := hsym.forall (fun _ _ h => h.symm) hd hc hne
  omega

/-- C12 at `demoSpace` with `demoCoverages` and the zero-size range at 40. -/
theorem GetCoverage_total_witness :
    stdRuntime.Valid ∧
    (∀ r ∈ inputRanges demoSpace demoCoverages, r.Addr + r.Size < W) ∧
    demoSpace.GetCoverage stdRuntime demoCoverages =
      .ok [⟨3, 2, "text"⟩, ⟨6, 3, "text"⟩, ⟨10, 6, "text"⟩, ⟨20, 4, "text"⟩, ⟨40, 0, "data"⟩] ∧
    (⟨40, 0, "data"⟩ : AddrPos) ∈ inputRanges demoSpace demoCoverages ∧
    (∃! c, c ∈ ([⟨3, 2, "text"⟩, ⟨6, 3, "text"⟩, ⟨10, 6, "text"⟩, ⟨20, 4, "text"⟩,
        ⟨40, 0, "data"⟩] : List AddrPos) ∧ c.Addr ≤ 40 ∧ 40 + 0 ≤ c.Addr + c.Size) :=
  ⟨stdRuntime_valid, by decide, by decide, by decide,
    GetCoverage_total stdRuntime stdRuntime_valid demoSpace demoCoverages _
      (by decide) (by decide) ⟨40, 0, "data"⟩ (by decide)⟩

/-- C19, the claim on a coverage whose last range wraps. `BuildSymbolCoverage`
stores `[0, 5)` followed by a range at 10 of size `2^64 - 8`; the list is
strictly increasing and consecutive ranges are separated, yet for the span
`[3, 4)` the comparator gives `0` then `-1`, and `SymbolCovHas(3, 1)` is false
although the first range has `c.Addr < 4` and `3 < c.Addr + c.Size`. -/
theorem SymbolCovHas_wrap_counterexample :
    wrapKnown.BuildSymbolCoverage stdRuntime =
      .ok { wrapKnown with symbolCoverage := wrapCov } ∧
    wrapCov.Chain' (fun c d => c.Addr + c.Size < d.Addr) ∧
    wrapCov.Chain' (fun c d => c.Addr < d.Addr) ∧
    3 + 1 < W ∧
    wrapCov.map (fun c => symbolCovCmp 1 c { Addr := 3, Size := 0, Typ := "" }) = [0, -1] ∧
    KnownAddr.SymbolCovHas { wrapKnown with symbolCoverage := wrapCov } 3 1 = false ∧
    ∃ c ∈ wrapCov, c.Addr < 3 + 1 ∧ 3 < c.Addr + c.Size := by
  refine ⟨by decide, by simp [wrapCov], by simp [wrapCov], by decide, by decide, by decide, ?_⟩
  exact ⟨⟨0, 5, "text"⟩, by decide, by decide, by decide⟩

/-- C19, amended: on a coverage list whose consecutive ranges `c`, `d` have
`c.Addr + c.Size < d.Addr` and whose ranges do not wrap around `2^64`, and for
`addr + size < 2^64`, the comparator of `SymbolCovHas` takes the values `-1`,
`0`, `1` in non-decreasing order along the list, and `SymbolCovHas(addr, size)`
is true exactly when some range `c` has `c.Addr < addr + size` and
`addr < c.Addr + c.Size`; on an empty coverage, as in a new `KnownAddr`, it is
false. -/
theorem SymbolCovHas_linear_scan (f : KnownAddr) (addr size : Nat)
    (hchain : f.symbolCoverage.Chain' (fun c d => c.Addr + c.Size < d.Addr))
    (hb : ∀ c ∈ f.symbolCoverage, c.Addr + c.Size < W) (hw : addr + size < W) :
    (f.symbolCoverage.map
      (fun c => symbolCovCmp size c { Addr := addr, Size := 0, Typ := "" })).Pairwise
        (fun u v => u ≤ v) ∧
    (∀ c ∈ f.symbolCoverage,
      symbolCovCmp size c { Addr := addr, Size := 0, Typ := "" } = -1 ∨
      symbolCovCmp size c { Addr := addr, Size := 0, Typ := "" } = 0 ∨
      symbolCovCmp size c { Addr := addr, Size := 0, Typ := "" } = 1) ∧
    (f.SymbolCovHas addr size = true ↔
      ∃ c ∈ f.symbolCoverage, c.Addr < addr + size ∧ addr < c.Addr + c.Size) ∧
    (f.symbolCoverage = [] → f.SymbolCovHas addr size = false) ∧
    (∀ k : Nat, (NewKnownAddr k).SymbolCovHas addr size = false) := by
  haveI : IsTrans AddrPos (fun c d => c.Addr + c.Size < d.Addr) :=
    ⟨fun a b c h1 h2 => by omega⟩
  have hsep : f.symbolCoverage.Pairwise (fun c d => c.Addr + c.Size < d.Addr) :=
    List.chain'_iff_pairwise.1 hchain
  refine ⟨?_, ?_, covSearch_iff f.symbolCoverage hsep hb addr size hw, ?_, ?_⟩
  · rw [List.pairwise_map]
    refine hsep.imp_of_mem ?_
    intro c d hc hd hcd
    have h1 := hb c hc
    have h2 := hb d hd
    unfold symbolCovCmp
    rw [Nat.mod_eq_of_lt h1, Nat.mod_eq_of_lt h2, Nat.mod_eq_of_lt hw]
    simp only
    split_ifs <;> omega
  · intro c _
    unfold symbolCovCmp
    split_ifs <;> simp
  · intro he
    unfold KnownAddr.SymbolCovHas
    rw [he]
    rfl
  · intro k
    rfl

/-- C19, amended, at the four ranges `BuildSymbolCoverage` stores for
`demoSpace` and the span `[9, 12)`: the comparator gives `-1, -1, 0, 1` and the
binary search finds the range `[10, 15)`. -/
theorem SymbolCovHas_linear_scan_witness :
    demoKnown.BuildSymbolCoverage stdRuntime = .ok demoBuilt ∧
    demoBuilt.symbolCoverage.Chain' (fun c d => c.Addr + c.Size < d.Addr) ∧
    (∀ c ∈ demoBuilt.symbolCoverage, c.Addr + c.Size < W) ∧
    9 + 3 < W ∧
    demoBuilt.symbolCoverage.map
      (fun c => symbolCovCmp 3 c { Addr := 9, Size := 0, Typ := "" }) = [-1, -1, 0, 1] ∧
    demoBuilt.SymbolCovHas 9 3 = true ∧
    ((demoBuilt.symbolCoverage.map
        (fun c => symbolCovCmp 3 c { Addr := 9, Size := 0, Typ := "" })).Pairwise
          (fun u v => u ≤ v) ∧
      (∀ c ∈ demoBuilt.symbolCoverage,
        symbolCovCmp 3 c { Addr := 9, Size := 0, Typ := "" } = -1 ∨
        symbolCovCmp 3 c { Addr := 9, Size := 0, Typ := "" } = 0 ∨
        symbolCovCmp 3 c { Addr := 9, Size := 0, Typ := "" } = 1) ∧
      (demoBuilt.SymbolCovHas 9 3 = true ↔
        ∃ c ∈ demoBuilt.symbolCoverage, c.Addr < 9 + 3 ∧ 9 < c.Addr + c.Size) ∧
      (demoBuilt.symbolCoverage = [] → demoBuilt.SymbolCovHas 9 3 = false) ∧
      (∀ k : Nat, (NewKnownAddr k).SymbolCovHas 9 3 = false)) :=
  ⟨by decide, by simp [demoBuilt], by decide, by decide, by decide, by decide,
    SymbolCovHas_linear_scan demoBuilt 9 3 (by simp [demoBuilt]) (by decide) (by decide)⟩

/-- C20: when two inputs hold the same set of `(Addr, Size, Type)` values, in
any order and with any repetition, and no range wraps around `2^64`, then under
any two valid runtimes `GetCoverage` panics on both or returns the same list on
both. -/
theorem GetCoverage_set_determined (R1 R2 : Runtime) (hR1 : R1.Valid) (hR2 : R2.Valid)
    (a1 a2 : AddrSpace) (cs1 cs2 : List AddrCoverage)
    (h12 : ∀ x ∈ inputRanges a1 cs1, x ∈ inputRanges a2 cs2)
    (h21 : ∀ x ∈ inputRanges a2 cs2, x ∈ inputRanges a1 cs1)
    (hw : ∀ r ∈ inputRanges a1 cs1, r.Addr + r.Size < W) :
    ((∃ e, a1.GetCoverage R1 cs1 = .error e) ∧ (∃ e, a2.GetCoverage R2 cs2 = .error e)) ∨
    (∃ cov, a1.GetCoverage R1 cs1 = .ok cov ∧ a2.GetCoverage R2 cs2 = .ok cov) := by
  have hw2 : ∀ r ∈ inputRanges a2 cs2, r.Addr + r.Size < W := fun r hr => hw r (h21 r hr)
  cases hres1 : a1.GetCoverage R1 cs1 with
  | error e1 =>
    cases hres2 : a2.GetCoverage R2 cs2 with
    | error e2 => exact Or.inl ⟨⟨e1, rfl⟩, ⟨e2, rfl⟩⟩
    | ok cov2 =>
      obtain ⟨r1, m1, r2, m2, ht, ha, hb⟩ := GetCoverage_error_conflict hR1 hw hres1
      exact ((GetCoverage_inv hR2 hw2 hres2).no_conflict (h12 r1 m1) (h12 r2 m2)
        ht ha hb).elim
  | ok cov1 =>
    cases hres2 : a2.GetCoverage R2 cs2 with
    | error e2 =>
      obtain ⟨r1, m1, r2, m2, ht, ha, hb⟩ := GetCoverage_error_conflict hR2 hw2 hres2
      exact ((GetCoverage_inv hR1 hw hres1).no_conflict (h21 r1 m1) (h21 r2 m2)
        ht ha hb).elim
    | ok cov2 =>
      have inv1 := GetCoverage_inv hR1 hw hres1
      have conn1 := GetCoverage_conn hR1 hw hres1
      have inv2 := coverInv_congr h21 h12 (GetCoverage_inv hR2 hw2 hres2)
      have conn2 := coverConn_congr h21 (GetCoverage_conn hR2 hw2 hres2)
      have := cover_unique inv1 conn1 inv2 conn2
      subst this
      exact Or.inr ⟨cov1, rfl, rfl⟩

/-- C20 at `demoSpace` with `demoCoverages` against an empty space with
`demoShuffled`. -/
theorem GetCoverage_set_determined_witness :
    stdRuntime.Valid ∧
    (∀ x ∈ inputRanges demoSpace demoCoverages, x ∈ inputRanges [] demoShuffled) ∧
    (∀ x ∈ inputRanges [] demoShuffled, x ∈ inputRanges demoSpace demoCoverages) ∧
    (∀ r ∈ inputRanges demoSpace demoCoverages, r.Addr + r.Size < W) ∧
    (((∃ e, demoSpace.GetCoverage stdRuntime demoCoverages = .error e) ∧
        (∃ e, AddrSpace.GetCoverage stdRuntime [] demoShuffled = .error e)) ∨
      (∃ cov, demoSpace.GetCoverage stdRuntime demoCoverages = .ok cov ∧
        AddrSpace.GetCoverage stdRuntime [] demoShuffled = .ok cov)) :=
  ⟨stdRuntime_valid, by decide, by decide, by decide,
    GetCoverage_set_determined stdRuntime stdRuntime stdRuntime_valid stdRuntime_valid
      demoSpace [] demoCoverages demoShuffled (by decide) (by decide) (by decide)⟩

/-- C13, the claim at a failing reader. For a `string` struct, a `[]uint8`
struct and a typedef of an `embed.FS` struct, with helpers that return the
error "read failed", `SizeForDWARFVar` returns no content and the static size
together with that error, not a nil error. -/
theorem SizeForDWARFVar_error_counterexample :
    SizeForDWARFVar failingReaders demoData (varEntry 1) noMemory =
      ({ contents := [], size := 16, err := some "read failed" }, []) ∧
    SizeForDWARFVar failingReaders demoData (varEntry 2) noMemory =
      ({ contents := [], size := 24, err := some "read failed" }, []) ∧
    SizeForDWARFVar failingReaders demoData (varEntry 3) noMemory =
      ({ contents := [], size := 8, err := some "read failed" }, []) ∧
    (SizeForDWARFVar failingReaders demoData (varEntry 1) noMemory).1.err ≠ none := by
  decide

/-- C13, amended: for an entry whose type resolves to a `string` struct, a
`[]uint8` struct or a typedef of an `embed.FS` struct, when the reader helper
returns an error `e`, `SizeForDWARFVar` returns no content, the static type
size and the error `e` itself, after the helper's reads; when the helper
returns no error and a zero length or an empty bundle, it returns no content,
the static type size and a nil error; so the error is nil only when the
helper's is. The static size is the type's size whenever that is a `uint64`. -/
theorem SizeForDWARFVar_read_failure (rd : Readers) (d : Data) (entry : Entry)
    (readMemory : MemoryReader) (o : Nat) (typ : DType)
    (hv : entry.Val Attr.AttrType = some (AnyVal.Offset o)) (ht : d.Typ o = .ok typ) :
    (∀ (s : StructType) (p n : Nat) (e : String), typ = DType.StructType s →
      s.StructName = "string" → (rd.readString s readMemory).1 = (p, n, some e) →
      SizeForDWARFVar rd d entry readMemory =
        ({ contents := [], size := uint64OfInt64 typ.Size, err := some e },
          (rd.readString s readMemory).2)) ∧
    (∀ (s : StructType) (p n : Nat) (e : String), typ = DType.StructType s →
      s.StructName = "[]uint8" → (rd.readSlice s readMemory "*uint8").1 = (p, n, some e) →
      SizeForDWARFVar rd d entry readMemory =
        ({ contents := [], size := uint64OfInt64 typ.Size, err := some e },
          (rd.readSlice s readMemory "*uint8").2)) ∧
    (∀ (s : StructType) (parts : List Content) (e : String),
      typ = DType.TypedefType (DType.StructType s) →
      s.StructName = "embed.FS" → (rd.readEmbedFS s readMemory).1 = (parts, some e) →
      SizeForDWARFVar rd d entry readMemory =
        ({ contents := [], size := uint64OfInt64 typ.Size, err := some e },
          (rd.readEmbedFS s readMemory).2)) ∧
    ((SizeForDWARFVar rd d entry readMemory).1.err = none →
      (∀ s, typ = DType.StructType s → s.StructName = "string" →
        (rd.readString s readMemory).1.2.2 = none) ∧
      (∀ s, typ = DType.StructType s → s.StructName = "[]uint8" →
        (rd.readSlice s readMemory "*uint8").1.2.2 = none) ∧
      (∀ s, typ = DType.TypedefType (DType.StructType s) → s.StructName = "embed.FS" →
        (rd.readEmbedFS s readMemory).1.2 = none)) ∧
    (∀ (s : StructType) (p : Nat), typ = DType.StructType s →
      s.StructName = "string" → (rd.readString s readMemory).1 = (p, 0, none) →
      (SizeForDWARFVar rd d entry readMemory).1 =
        { contents := [], size := uint64OfInt64 typ.Size, err := none }) ∧
    (∀ (s : StructType) (p : Nat), typ = DType.StructType s →
      s.StructName = "[]uint8" → (rd.readSlice s readMemory "*uint8").1 = (p, 0, none) →
      (SizeForDWARFVar rd d entry readMemory).1 =
        { contents := [], size := uint64OfInt64 typ.Size, err := none }) ∧
    (∀ (s : StructType), typ = DType.TypedefType (DType.StructType s) →
      s.StructName = "embed.FS" → (rd.readEmbedFS s readMemory).1 = ([], none) →
      (SizeForDWARFVar rd d entry readMemory).1 =
        { contents := [], size := uint64OfInt64 typ.Size, err := none }) ∧
    (0 ≤ typ.Size → typ.Size < 2 ^ 64 →
      ((SizeForDWARFVar rd d entry readMemory).1.size : Int) = typ.Size) := by
  have hne : ¬ ("[]uint8" : String) = "string" := by decide
  refine ⟨?_, ?_, ?_, ?_, ?_, ?_, ?_, ?_⟩
  · intro s p n e hs hn hr
    subst hs
    rw [SizeForDWARFVar_struct rd d entry readMemory hv ht]
    simp [hn, hr, DType.Size]
  · intro s p n e hs hn hr
    subst hs
    rw [SizeForDWARFVar_struct rd d entry readMemory hv ht]
    simp [hn, hne, hr, DType.Size]
  · intro s parts e hs hn hr
    subst hs
    rw [SizeForDWARFVar_typedef_struct rd d entry readMemory hv ht]
    simp [hn, hr, DType.Size]
  · intro herr
    refine ⟨?_, ?_, ?_⟩
    · intro s hs hn
      subst hs
      rw [SizeForDWARFVar_struct rd d entry readMemory hv ht] at herr
      simp only [hn, if_true] at herr
      split_ifs at herr with h
      · exact herr
      · simp only [not_or, not_not] at h
        exact h.1
    · intro s hs hn
      subst hs
      rw [SizeForDWARFVar_struct rd d entry readMemory hv ht] at herr
      simp only [hn, hne, if_false, if_true] at herr
      split_ifs at herr with h
      · exact herr
      · simp only [not_or, not_not] at h
        exact h.1
    · intro s hs hn
      subst hs
      rw [SizeForDWARFVar_typedef_struct rd d entry readMemory hv ht] at herr
      simp only [hn, if_true] at herr
      split_ifs at herr with h
      · exact herr
      · simp only [not_or, not_not] at h
        exact h.1
  · intro s p hs hn hr
    subst hs
    rw [SizeForDWARFVar_struct rd d entry readMemory hv ht]
    simp [hn, hr, DType.Size]
  · intro s p hs hn hr
    subst hs
    rw [SizeForDWARFVar_struct rd d entry readMemory hv ht]
    simp [hn, hne, hr, DType.Size]
  · intro s hs hn hr
    subst hs
    rw [SizeForDWARFVar_typedef_struct rd d entry readMemory hv ht]
    simp [hn, hr, DType.Size]
  · intro h1 h2
    rw [SizeForDWARFVar_size rd d entry readMemory hv ht]
    exact uint64OfInt64_of_bounds h1 h2

/-- C13, amended, at a `string` struct whose header read fails. -/
theorem SizeForDWARFVar_read_failure_witness :
    (varEntry 1).Val Attr.AttrType = some (AnyVal.Offset 1) ∧
    demoData.Typ 1 = .ok (DType.StructType { StructName := "string", ByteSize := 16 }) ∧
    (failingReaders.readString { StructName := "string", ByteSize := 16 } noMemory).1 =
      (0, 0, some "read failed") ∧
    SizeForDWARFVar failingReaders demoData (varEntry 1) noMemory =
      ({ contents := [],
         size := uint64OfInt64
           (DType.StructType { StructName := "string", ByteSize := 16 }).Size,
         err := some "read failed" },
        (failingReaders.readString { StructName := "string", ByteSize := 16 } noMemory).2) ∧
    uint64OfInt64 (DType.StructType { StructName := "string", ByteSize := 16 }).Size = 16 :=
  ⟨by decide, by decide, rfl,
    (SizeForDWARFVar_read_failure failingReaders demoData (varEntry 1) noMemory 1 _
      (by decide) (by decide)).1 _ 0 0 "read failed" rfl rfl rfl,
    by decide⟩

/-- C14: for an entry whose type resolves to a struct named `string` and whose
header read succeeds with data pointer `p` and length `n`, `SizeForDWARFVar`
returns a nil error, the struct's declared size (converted to `uint64`) as
static size, and the single content `{"string", p, n}` when `n > 0`, none when
`n = 0`. -/
theorem SizeForDWARFVar_string (rd : Readers) (d : Data) (entry : Entry)
    (readMemory : MemoryReader) (o : Nat) (s : StructType) (p n : Nat)
    (hv : entry.Val Attr.AttrType = some (AnyVal.Offset o))
    (ht : d.Typ o = .ok (DType.StructType s)) (hn : s.StructName = "string")
    (hr : (rd.readString s readMemory).1 = (p, n, none)) :
    (SizeForDWARFVar rd d entry readMemory).1.err = none ∧
    (SizeForDWARFVar rd d entry readMemory).1.size = uint64OfInt64 s.ByteSize ∧
    (0 ≤ s.ByteSize → s.ByteSize < 2 ^ 64 →
      ((SizeForDWARFVar rd d entry readMemory).1.size : Int) = s.ByteSize) ∧
    (0 < n → (SizeForDWARFVar rd d entry readMemory).1.contents =
      [{ Name := "string", Addr := p, Size := n }]) ∧
    (n = 0 → (SizeForDWARFVar rd d entry readMemory).1.contents = []) := by
  rw [SizeForDWARFVar_struct rd d entry readMemory hv ht]
  simp only [hn, if_true, hr, ne_eq, not_true_eq_false, false_or]
  by_cases h0 : n = 0
  · simp only [h0, if_true, lt_irrefl, false_implies, true_and, implies_true, and_true]
    exact fun h1 h2 => uint64OfInt64_of_bounds h1 h2
  · have hpos : 0 < n := Nat.pos_of_ne_zero h0
    simp only [h0, if_false, hpos, true_implies, false_implies, and_true, true_and]
    exact fun h1 h2 => uint64OfInt64_of_bounds h1 h2

/-- C14 at the header `(0x3000, 5)` of a 16-byte `string` struct. -/
theorem SizeForDWARFVar_string_witness :
    (varEntry 1).Val Attr.AttrType = some (AnyVal.Offset 1) ∧
    demoData.Typ 1 = .ok (DType.StructType { StructName := "string", ByteSize := 16 }) ∧
    (headerReaders.readString { StructName := "string", ByteSize := 16 } noMemory).1 =
      (0x3000, 5, none) ∧
    (SizeForDWARFVar headerReaders demoData (varEntry 1) noMemory).1.contents =
      [{ Name := "string", Addr := 0x3000, Size := 5 }] ∧
    (SizeForDWARFVar headerReaders demoData (varEntry 1) noMemory).1.size = 16 ∧
    (SizeForDWARFVar headerReaders demoData (varEntry 1) noMemory).1.err = none :=
  ⟨by decide, by decide, rfl,
    (SizeForDWARFVar_string headerReaders demoData (varEntry 1) noMemory 1
      { StructName := "string", ByteSize := 16 } 0x3000 5 (by decide) (by decide) rfl
      rfl).2.2.2.1 (by decide),
    by decide, by decide⟩

/-- C15: an entry whose type attribute is absent or is not a type offset, and
an entry whose type offset does not resolve, give a non-nil error, no content,
static size 0 and no invocation of `readMemory`; whenever the type resolves,
the static size returned is `uint64` of the resolved type's size, which is that
size itself whenever the size is not negative. -/
theorem SizeForDWARFVar_malformed (rd : Readers) (d : Data) (entry : Entry)
    (readMemory : MemoryReader) :
    ((∀ o, entry.Val Attr.AttrType ≠ some (AnyVal.Offset o)) →
      SizeForDWARFVar rd d entry readMemory =
        ({ contents := [], size := 0, err := some "failed to get type offset" }, [])) ∧
    (∀ (o : Nat) (e : String), entry.Val Attr.AttrType = some (AnyVal.Offset o) →
      d.Typ o = .error e →
      SizeForDWARFVar rd d entry readMemory =
        ({ contents := [], size := 0, err := some e }, [])) ∧
    (∀ (o : Nat) (typ : DType), entry.Val Attr.AttrType = some (AnyVal.Offset o) →
      d.Typ o = .ok typ →
      (SizeForDWARFVar rd d entry readMemory).1.size = uint64OfInt64 typ.Size) ∧
    (∀ (o : Nat) (typ : DType), entry.Val Attr.AttrType = some (AnyVal.Offset o) →
      d.Typ o = .ok typ → 0 ≤ typ.Size → typ.Size < 2 ^ 64 →
      ((SizeForDWARFVar rd d entry readMemory).1.size : Int) = typ.Size) := by
  refine ⟨SizeForDWARFVar_noOffset rd d entry readMemory,
    fun o e hv ht => SizeForDWARFVar_typeError rd d entry readMemory hv ht,
    fun o typ hv ht => SizeForDWARFVar_size rd d entry readMemory hv ht, ?_⟩
  intro o typ hv ht h1 h2
  rw [SizeForDWARFVar_size rd d entry readMemory hv ht]
  exact uint64OfInt64_of_bounds h1 h2

/-- C15 at an entry without a type attribute, at an offset that does not
resolve, and at a typedef whose struct has size 8. -/
theorem SizeForDWARFVar_malformed_witness :
    SizeForDWARFVar headerReaders demoData fileZeroEntry zeroMemory =
      ({ contents := [], size := 0, err := some "failed to get type offset" }, []) ∧
    SizeForDWARFVar headerReaders demoData (varEntry 9) zeroMemory =
      ({ contents := [], size := 0, err := some "no type at offset" }, []) ∧
    ((SizeForDWARFVar headerReaders demoData (varEntry 3) zeroMemory).1.size : Int) =
      (DType.TypedefType (DType.StructType { StructName := "embed.FS", ByteSize := 8 })).Size ∧
    (DType.TypedefType (DType.StructType { StructName := "embed.FS", ByteSize := 8 })).Size = 8 :=
  ⟨(SizeForDWARFVar_malformed headerReaders demoData fileZeroEntry zeroMemory).1
      (fun o h => by
        have hnone : fileZeroEntry.Val Attr.AttrType = none := by decide
        rw [hnone] at h
        cases h),
    (SizeForDWARFVar_malformed headerReaders demoData (varEntry 9) zeroMemory).2.1 9 _
      (by decide) (by decide),
    (SizeForDWARFVar_malformed headerReaders demoData (varEntry 3) zeroMemory).2.2.2 3 _
      (by decide) (by decide) (by decide) (by decide),
    by decide⟩

/-- C16: with the reader helpers as the spec describes them, each reading its
header or table with one invocation of `readMemory`, a call of
`SizeForDWARFVar` invokes `readMemory` at most once: exactly once, through
`readString`, `readSlice` or `readEmbedFS`, for a `string` struct, a `[]uint8`
struct or a typedef of an `embed.FS` struct, and never when the type has
another shape or does not resolve. For any helpers, the invocations of a call
are those of the one application of the matching helper to `readMemory`, and
none otherwise. -/
theorem SizeForDWARFVar_single_read (rd : Readers) (L : Layout) (d : Data)
    (entry : Entry) (readMemory : MemoryReader) :
    (SizeForDWARFVar (specReaders L) d entry readMemory).2.length ≤ 1 ∧
    (∀ (o : Nat) (s : StructType), entry.Val Attr.AttrType = some (AnyVal.Offset o) →
      d.Typ o = .ok (DType.StructType s) → s.StructName = "string" →
      (SizeForDWARFVar (specReaders L) d entry readMemory).2 =
        [{ addr := L.varAddr, size := 2 * L.word }] ∧
      (SizeForDWARFVar rd d entry readMemory).2 = (rd.readString s readMemory).2) ∧
    (∀ (o : Nat) (s : StructType), entry.Val Attr.AttrType = some (AnyVal.Offset o) →
      d.Typ o = .ok (DType.StructType s) → s.StructName = "[]uint8" →
      (SizeForDWARFVar (specReaders L) d entry readMemory).2 =
        [{ addr := L.varAddr, size := 3 * L.word }] ∧
      (SizeForDWARFVar rd d entry readMemory).2 = (rd.readSlice s readMemory "*uint8").2) ∧
    (∀ (o : Nat) (s : StructType), entry.Val Attr.AttrType = some (AnyVal.Offset o) →
      d.Typ o = .ok (DType.TypedefType (DType.StructType s)) → s.StructName = "embed.FS" →
      (SizeForDWARFVar (specReaders L) d entry readMemory).2 =
        [{ addr := L.varAddr, size := L.tableSize }] ∧
      (SizeForDWARFVar rd d entry readMemory).2 = (rd.readEmbedFS s readMemory).2) ∧
    ((¬ ∃ (o : Nat) (s : StructType), entry.Val Attr.AttrType = some (AnyVal.Offset o) ∧
        ((d.Typ o = .ok (DType.StructType s) ∧
            (s.StructName = "string" ∨ s.StructName = "[]uint8")) ∨
          (d.Typ o = .ok (DType.TypedefType (DType.StructType s)) ∧
            s.StructName = "embed.FS"))) →
      (SizeForDWARFVar (specReaders L) d entry readMemory).2 = [] ∧
      (SizeForDWARFVar rd d entry readMemory).2 = []) := by
  have hs := SizeForDWARFVar_reads (specReaders L) d entry readMemory
  have hg := SizeForDWARFVar_reads rd d entry readMemory
  have h1 : ∀ (o : Nat) (s : StructType), entry.Val Attr.AttrType = some (AnyVal.Offset o) →
      d.Typ o = .ok (DType.StructType s) → s.StructName = "string" →
      (SizeForDWARFVar (specReaders L) d entry readMemory).2 =
        [{ addr := L.varAddr, size := 2 * L.word }] := by
    intro o s hv ht hn
    rw [hs.1 o s hv ht hn]
    exact specReadString_reads L s readMemory
  have h2 : ∀ (o : Nat) (s : StructType), entry.Val Attr.AttrType = some (AnyVal.Offset o) →
      d.Typ o = .ok (DType.StructType s) → s.StructName = "[]uint8" →
      (SizeForDWARFVar (specReaders L) d entry readMemory).2 =
        [{ addr := L.varAddr, size := 3 * L.word }] := by
    intro o s hv ht hn
    rw [hs.2.1 o s hv ht hn]
    exact specReadSlice_reads L s readMemory "*uint8"
  have h3 : ∀ (o : Nat) (s : StructType), entry.Val Attr.AttrType = some (AnyVal.Offset o) →
      d.Typ o = .ok (DType.TypedefType (DType.StructType s)) → s.StructName = "embed.FS" →
      (SizeForDWARFVar (specReaders L) d entry readMemory).2 =
        [{ addr := L.varAddr, size := L.tableSize }] := by
    intro o s hv ht hn
    rw [hs.2.2.1 o s hv ht hn]
    exact specReadEmbedFS_reads L s readMemory
  refine ⟨?_, fun o s hv ht hn => ⟨h1 o s hv ht hn, hg.1 o s hv ht hn⟩,
    fun o s hv ht hn => ⟨h2 o s hv ht hn, hg.2.1 o s hv ht hn⟩,
    fun o s hv ht hn => ⟨h3 o s hv ht hn, hg.2.2.1 o s hv ht hn⟩,
    fun hno => ⟨hs.2.2.2 hno, hg.2.2.2 hno⟩⟩
  by_cases hrec : ∃ (o : Nat) (s : StructType),
      entry.Val Attr.AttrType = some (AnyVal.Offset o) ∧
        ((d.Typ o = .ok (DType.StructType s) ∧
            (s.StructName = "string" ∨ s.StructName = "[]uint8")) ∨
          (d.Typ o = .ok (DType.TypedefType (DType.StructType s)) ∧
            s.StructName = "embed.FS"))
  · obtain ⟨o, s, hv, (⟨ht, hn | hn⟩ | ⟨ht, hn⟩)⟩ := hrec
    · rw [h1 o s hv ht hn]; simp
    · rw [h2 o s hv ht hn]; simp
    · rw [h3 o s hv ht hn]; simp
  · rw [hs.2.2.2 hrec]; simp

/-- C16 at a `string` struct, whose header is read once, `16` bytes at the
variable's address, and at a type of another shape, for which nothing is
read. -/
theorem SizeForDWARFVar_single_read_witness :
    SizeForDWARFVar (specReaders demoLayout) demoData (varEntry 1) zeroMemory =
      ({ contents := [{ Name := "string", Addr := 0x3000, Size := 5 }], size := 16,
         err := none }, [{ addr := 0x1000, size := 16 }]) ∧
    SizeForDWARFVar (specReaders demoLayout) demoData (varEntry 1) noMemory =
      ({ contents := [], size := 16, err := some "unreadable" },
        [{ addr := 0x1000, size := 16 }]) ∧
    SizeForDWARFVar (specReaders demoLayout) demoData (varEntry 4) zeroMemory =
      ({ contents := [], size := 8, err := none }, []) ∧
    (SizeForDWARFVar (specReaders demoLayout) demoData (varEntry 2) zeroMemory).2.length ≤ 1 :=
  ⟨by decide, by decide, by decide,
    (SizeForDWARFVar_single_read headerReaders demoLayout demoData (varEntry 2)
      zeroMemory).1⟩

theorem Entry_Val_isSome (e : Entry) (a : Attr) :
    (e.Val a).isSome = true ↔ ∃ f ∈ e.Field, f.Attr = a := by
  unfold Entry.Val
  rw [Option.isSome_map', List.find?_isSome]
  simp

theorem Entry_Val_none (e : Entry) (a : Attr) :
    e.Val a = none ↔ ∀ f ∈ e.Field, f.Attr ≠ a := by
  rw [← Option.not_isSome_iff_eq_none, Entry_Val_isSome]
  simp

/-- What `EntryShouldIgnore` computes: it is true exactly when the entry's
declaration attribute is the `bool` `true`, or its inline attribute is the
`bool` `true`, or it has a field with the abstract-origin attribute, or it has
a field with the specification attribute; so an entry with an abstract-origin
field is ignored whatever its other fields, and one with none of the four
attributes is not. -/
theorem EntryShouldIgnore_iff (entry : Entry) :
    (EntryShouldIgnore entry = true ↔
      entry.Val Attr.AttrDeclaration = some (AnyVal.bool true) ∨
      entry.Val Attr.AttrInline = some (AnyVal.bool true) ∨
      (∃ f ∈ entry.Field, f.Attr = Attr.AttrAbstractOrigin) ∨
      (∃ f ∈ entry.Field, f.Attr = Attr.AttrSpecification)) ∧
    ((∃ f ∈ entry.Field, f.Attr = Attr.AttrAbstractOrigin) →
      EntryShouldIgnore entry = true) ∧
    ((∀ f ∈ entry.Field, f.Attr ≠ Attr.AttrDeclaration ∧ f.Attr ≠ Attr.AttrInline ∧
        f.Attr ≠ Attr.AttrAbstractOrigin ∧ f.Attr ≠ Attr.AttrSpecification) →
      EntryShouldIgnore entry = false) := by
  have key : EntryShouldIgnore entry = true ↔
      entry.Val Attr.AttrDeclaration = some (AnyVal.bool true) ∨
      entry.Val Attr.AttrInline = some (AnyVal.bool true) ∨
      (entry.Val Attr.AttrAbstractOrigin).isSome = true ∨
      (entry.Val Attr.AttrSpecification).isSome = true := by
    unfold EntryShouldIgnore
    by_cases h1 : entry.Val Attr.AttrDeclaration = some (AnyVal.bool true)
    · simp [h1]
    · by_cases h2 : entry.Val Attr.AttrInline = some (AnyVal.bool true)
      · have : (match entry.Val Attr.AttrDeclaration with
            | some (AnyVal.bool true) => true
            | _ =>
              match entry.Val Attr.AttrInline with
              | some (AnyVal.bool true) => true
              | _ =>
                match entry.Val Attr.AttrAbstractOrigin with
                | some _ => true
                | none => (entry.Val Attr.AttrSpecification).isSome) = true := by
          split
          · rfl
          · simp [h2]
        simp [this, h2]
      · have hd : (match entry.Val Attr.AttrDeclaration with
            | some (AnyVal.bool true) => true
            | _ =>
              match entry.Val Attr.AttrInline with
              | some (AnyVal.bool true) => true
              | _ =>
                match entry.Val Attr.AttrAbstractOrigin with
                | some _ => true
                | none => (entry.Val Attr.AttrSpecification).isSome) =
            (match entry.Val Attr.AttrAbstractOrigin with
              | some _ => true
              | none => (entry.Val Attr.AttrSpecification).isSome) := by
          split
          · next h => exact (h1 h).elim
          · split
            · next h => exact (h2 h).elim
            · rfl
        rw [hd]
        cases h3 : entry.Val Attr.AttrAbstractOrigin with
        | some v => simp [h1, h2]
        | none => simp [h1, h2]
  rw [Entry_Val_isSome, Entry_Val_isSome] at key
  refine ⟨key, fun h => key.2 (Or.inr (Or.inr (Or.inl h))), ?_⟩
  intro hno
  have hnot : ¬ EntryShouldIgnore entry = true := by
    rw [key]
    rintro (h | h | ⟨f, hf, h⟩ | ⟨f, hf, h⟩)
    · have := (Entry_Val_isSome entry Attr.AttrDeclaration).1 (by rw [h]; rfl)
      obtain ⟨f, hf, ha⟩ := this
      exact (hno f hf).1 ha
    · have := (Entry_Val_isSome entry Attr.AttrInline).1 (by rw [h]; rfl)
      obtain ⟨f, hf, ha⟩ := this
      exact (hno f hf).2.1 ha
    · exact (hno f hf).2.2.1 h
    · exact (hno f hf).2.2.2 h
  simpa using hnot

/-- C17, the code at an entry marked inlined. `DW_AT_inline` is a constant
and `debug/dwarf` delivers it as an `int64`; on the entry whose inline
attribute is `DW_INL_inlined` (1) the assertion `inline.(bool)` fails and, with
none of the other three attributes present, `EntryShouldIgnore` returns
false. -/
theorem EntryShouldIgnore_inline_constant :
    inlinedEntry.Val Attr.AttrInline = some (AnyVal.int64 1) ∧
    inlinedEntry.Val Attr.AttrDeclaration = none ∧
    inlinedEntry.Val Attr.AttrAbstractOrigin = none ∧
    inlinedEntry.Val Attr.AttrSpecification = none ∧
    EntryShouldIgnore inlinedEntry = false := by
  decide

/-- C18, the code at a nil element of the file table. The table
`[nil, main.go]` has length 2, the entry declares file index 0 and is no
trampoline: the index passes the range check and `files[0].Name` dereferences
nil. -/
theorem EntryFileReader_nil_file :
    (demoData.LineReader demoUnit).1 = some { Files := [none, some { Name := "main.go" }] } ∧
    fileZeroEntry.Val Attr.AttrTrampoline = none ∧
    fileZeroEntry.Val Attr.AttrDeclFile = some (AnyVal.int64 0) ∧
    EntryFileReader demoUnit demoData fileZeroEntry =
      .error RuntimeError.nilDereference := by
  decide

/-- The lookup closure on a file table without nil elements: the placeholder
for a trampoline, a missing declared file, an index that is no `int64`, is
negative or is past the table; the `Name` of the indexed file otherwise. -/
theorem EntryFileReader_of_files_present (cu : Entry) (d : Data) (entry : Entry)
    (files : List LineFile)
    (hfiles : (match (d.LineReader cu).1 with
      | some lr => lr.Files
      | none => []) = files.map some) :
    ((entry.Val Attr.AttrTrampoline ≠ none ∨ entry.Val Attr.AttrDeclFile = none ∨
        (∀ i : Int, entry.Val Attr.AttrDeclFile = some (AnyVal.int64 i) →
          i < 0 ∨ i.toNat ≥ files.length)) →
      EntryFileReader cu d entry = .ok defaultName) ∧
    (∀ (i : Int) (file : LineFile), entry.Val Attr.AttrTrampoline = none →
      entry.Val Attr.AttrDeclFile = some (AnyVal.int64 i) → 0 ≤ i →
      files[i.toNat]? = some file → EntryFileReader cu d entry = .ok file.Name) := by
  constructor
  · intro h
    unfold EntryFileReader
    simp only [hfiles]
    cases ht : entry.Val Attr.AttrTrampoline with
    | some v => rfl
    | none =>
      cases hf : entry.Val Attr.AttrDeclFile with
      | none => rfl
      | some v =>
        cases v with
        | int64 i =>
          rcases h with h | h | h
          · exact (h ht).elim
          · rw [hf] at h; cases h
          · have := h i hf
            simp only [List.length_map]
            rw [if_pos this]
        | bool b => rfl
        | Offset o => rfl
        | other t => rfl
  · intro i file ht hf hi hget
    unfold EntryFileReader
    simp only [hfiles, ht, hf, List.length_map]
    have hlt : i.toNat < files.length := (List.getElem?_eq_some.1 hget).1
    have hcond : ¬ (i < 0 ∨ i.toNat ≥ files.length) := by omega
    rw [if_neg hcond]
    simp [List.getElem?_map, hget]

end GoSizeAnalyzer
